import Mathlib

/-
Verification of the genealogy-rs mapfile/binary fusion library
(src/lib.rs).  The Rust source is shallowly embedded: text is a
`List Char`, u64 arithmetic is `Nat` with explicit `% 2^64` where the
source can wrap, Rust panics are modelled by `Option` (`none` = panic)
and Rust `Result` by `Except`.  The regular expressions of the source
are embedded as backtracking matchers built from a few greedy
combinators, reproducing the leftmost-greedy capture semantics of the
`regex` crate on ASCII input (the embedding treats `\s` as the ASCII
whitespace class and measures capture lengths in characters, which
agrees with the byte-based source on ASCII text).
The external collaborators (goblin's `Object::parse`, the `intervaltree`
crate) are modelled from their documented contracts: a parsed binary is
an explicit sum, and the interval tree is its element list with
filter-based queries.
-/

set_option maxRecDepth 20000

namespace GenealogyRs

def U64 : Nat := 2 ^ 64

/-- Wrapping u64 addition. -/
def u64add (a b : Nat) : Nat := (a + b) % U64

/-- Wrapping u64 subtraction (meaningful for `a b < U64`). -/
def u64sub (a b : Nat) : Nat := (U64 + a - b) % U64

/-- The `\s` class of the regex crate, restricted to ASCII. -/
def wsChar (c : Char) : Bool :=
  c = ' ' || c = '\t' || c = '\n' || c = '\r' || c = '\x0b' || c = '\x0c'

/-- The `[[:blank:]]` class: space or tab. -/
def blankChar (c : Char) : Bool := c = ' ' || c = '\t'

/-- The `[0-9a-fA-F]` class. -/
def hexDigitChar (c : Char) : Bool :=
  ('0' ≤ c && c ≤ '9') || ('a' ≤ c && c ≤ 'f') || ('A' ≤ c && c ≤ 'F')

/-- The `[0-9]` class. -/
def decDigitChar (c : Char) : Bool := '0' ≤ c && c ≤ '9'

/-- The `[0-9a-zA-Z]` class. -/
def alnumChar (c : Char) : Bool :=
  ('0' ≤ c && c ≤ '9') || ('a' ≤ c && c ≤ 'z') || ('A' ≤ c && c ≤ 'Z')

/-- The `\w` class, restricted to ASCII. -/
def wordChar (c : Char) : Bool := alnumChar c || c = '_'

/-- Numeric value of one hex digit. -/
def hexDigitVal (c : Char) : Nat :=
  if '0' ≤ c ∧ c ≤ '9' then c.toNat - '0'.toNat
  else if 'a' ≤ c ∧ c ≤ 'f' then c.toNat - 'a'.toNat + 10
  else if 'A' ≤ c ∧ c ≤ 'F' then c.toNat - 'A'.toNat + 10
  else 0

/-- Value of a hex-digit string, most significant digit first. -/
def hexVal (l : List Char) : Nat := l.foldl (fun a c => a * 16 + hexDigitVal c) 0

/-- Models `u64::from_str_radix(s, 16)` as used in src/lib.rs: `none`
exactly when the Rust call returns `Err` — on an empty string, on a
character that is not a hexadecimal digit, or on overflow past u64. -/
def fromStrRadix16 (l : List Char) : Option Nat :=
  if l ≠ [] ∧ l.all hexDigitChar ∧ hexVal l < U64 then some (hexVal l) else none

/-- Try `f n`, `f (n-1)`, ..., `f 0`, returning the first success:
the backtracking order of a greedy `*` quantifier. -/
def downFrom (f : Nat → Option β) : Nat → Option β
  | 0 => f 0
  | n + 1 => (f (n + 1)) <|> downFrom f n

/-- Try `f n`, ..., `f 1`, returning the first success:
the backtracking order of a greedy `+` quantifier. -/
def downFrom1 (f : Nat → Option β) : Nat → Option β
  | 0 => none
  | n + 1 => (f (n + 1)) <|> downFrom1 f n

/-- Greedy `p*`: pass the matched prefix and the remainder to the
continuation, longest candidate first. -/
def greedyStar (p : Char → Bool) (l : List Char)
    (k : List Char → List Char → Option β) : Option β :=
  downFrom (fun i => k (l.take i) (l.drop i)) (l.takeWhile p).length

/-- Greedy `p+`: like `greedyStar` but the prefix must be nonempty. -/
def greedyPlus (p : Char → Bool) (l : List Char)
    (k : List Char → List Char → Option β) : Option β :=
  downFrom1 (fun i => k (l.take i) (l.drop i)) (l.takeWhile p).length

/-- A single literal character. -/
def litChar (c : Char) (l : List Char) (k : List Char → Option β) : Option β :=
  match l with
  | [] => none
  | c' :: t => if c' = c then k t else none

/-- A literal string. -/
def litStr (s : List Char) (l : List Char) (k : List Char → Option β) : Option β :=
  if s.isPrefixOf l then k (l.drop s.length) else none

/-- Exactly `n` characters of class `p`, passed to the continuation. -/
def exactClass (p : Char → Bool) (n : Nat) (l : List Char)
    (k : List Char → List Char → Option β) : Option β :=
  if (l.take n).length = n ∧ (l.take n).all p then k (l.take n) (l.drop n) else none

/-- A greedy `(...)​?` group: try with the group first, then without. -/
def optGroup (g : List Char → (List Char → Option β) → Option β)
    (l : List Char) (k : List Char → Option β) : Option β :=
  (g l k) <|> k l

/-- First index at which `pat` occurs in `hay` (Rust's `str::find`). -/
def findSubstrIdx (hay pat : List Char) : Option Nat :=
  match hay with
  | [] => if pat.isEmpty then some 0 else none
  | _ :: t => if pat.isPrefixOf hay then some 0 else (findSubstrIdx t pat).map (· + 1)

/-- Last index at which `pat` occurs in `hay` (Rust's `str::rfind`). -/
def rfindSubstrIdx (hay pat : List Char) : Option Nat :=
  match hay with
  | [] => if pat.isEmpty then some 0 else none
  | _ :: t =>
    match (rfindSubstrIdx t pat).map (· + 1) with
    | some i => some i
    | none => if pat.isPrefixOf hay then some 0 else none

/-- Rust's `str::contains` for a literal pattern. -/
def containsSubstr (hay pat : List Char) : Bool := (findSubstrIdx hay pat).isSome

/-- Drop one trailing carriage return. -/
def stripCR (l : List Char) : List Char :=
  if l.getLast? = some '\r' then l.dropLast else l

/-- Helper for `rustLines`: accumulate the current line (reversed). -/
def rustLinesAux : List Char → List Char → List (List Char)
  | [], acc => if acc.isEmpty then [] else [acc.reverse]
  | c :: t, acc =>
    if c = '\n' then stripCR acc.reverse :: rustLinesAux t []
    else rustLinesAux t (c :: acc)

/-- Rust's `str::lines`: split on `\n`, strip a final `\r` of each line
that ended in `\n`, and do not yield a trailing empty line. -/
def rustLines (l : List Char) : List (List Char) := rustLinesAux l []

/-- Replace the element at an index, total (`l` unchanged when out of
range; the source never indexes out of range where this is used). -/
def modifyIdx (f : α → α) : List α → Nat → List α
  | [], _ => []
  | a :: as, 0 => f a :: as
  | a :: as, n + 1 => a :: modifyIdx f as n

/-! ## Data model (src/lib.rs lines 7-66) -/

/-- The error enum `GenealogyError`. -/
inductive GenealogyError where
  | UnsupportedBinaryFormat : GenealogyError
  | WrongMapfileFormat : GenealogyError
deriving DecidableEq, Repr

/-- The struct `SubSection`. -/
structure SubSection where
  name : String
  start_vaddr : Nat
  start_file_offset : Option Nat
  size : Nat
  filename : String
deriving DecidableEq, Repr

/-- The struct `Section`. -/
structure Section where
  name : String
  start_vaddr : Nat
  start_file_offset : Option Nat
  size : Nat
  subsections : List SubSection
deriving DecidableEq, Repr

def dummySubSection : SubSection :=
  { name := "", start_vaddr := 0, start_file_offset := none, size := 0, filename := "" }

def dummySection : Section :=
  { name := "", start_vaddr := 0, start_file_offset := none, size := 0, subsections := [] }

/-- Append a subsection (Rust's `Vec::push` on `subsections`). -/
def pushSub (ss : SubSection) (s : Section) : Section :=
  { s with subsections := s.subsections ++ [ss] }

/-! ## GNU parser (src/lib.rs lines 131-183)

The two multi-line regexes of `extract_gnu_mapfile` are embedded as
backtracking matchers returning the captures and the unconsumed
remainder; `captures_iter` is embedded by `scanGo`, which tries each
line-start position from left to right and continues after the end of
every match, exactly as the `^`-anchored multi-line regex engine does. -/

/-- Captures of `regex_sections`:
`^(?P<name>\.[^\s]+)\s+0x(?P<vrom>[0-9a-fA-F]+)[[:blank:]]+0x(?P<size>[0-9a-fA-F]+)`. -/
structure GnuSecCap where
  name : List Char
  vrom : List Char
  size : List Char
deriving DecidableEq, Repr

/-- Captures of `regex_subsections`:
same prefix with a leading space, then `[[:blank:]]+(?P<file>[^\r\n]+)`. -/
structure GnuSubCap where
  name : List Char
  vrom : List Char
  size : List Char
  file : List Char
deriving DecidableEq, Repr

def dummySecCap : GnuSecCap := { name := [], vrom := [], size := [] }

def notWsChar (c : Char) : Bool := !wsChar c
def notCRLFChar (c : Char) : Bool := c != '\r' && c != '\n'

/-- Match `regex_sections` at the head of `l`. -/
def gnuSecTryCore (l : List Char) : Option (GnuSecCap × List Char) :=
  litChar '.' l (fun r0 =>
  greedyPlus notWsChar r0 (fun nm r1 =>
  greedyPlus wsChar r1 (fun _ r2 =>
  litChar '0' r2 (fun r3 =>
  litChar 'x' r3 (fun r4 =>
  greedyPlus hexDigitChar r4 (fun h1 r5 =>
  greedyPlus blankChar r5 (fun _ r6 =>
  litChar '0' r6 (fun r7 =>
  litChar 'x' r7 (fun r8 =>
  greedyPlus hexDigitChar r8 (fun h2 r9 =>
  some ({ name := '.' :: nm, vrom := h1, size := h2 }, r9)))))))))))

/-- Match `regex_subsections` at the head of `l`. -/
def gnuSubTryCore (l : List Char) : Option (GnuSubCap × List Char) :=
  litChar ' ' l (fun l1 =>
  litChar '.' l1 (fun r0 =>
  greedyPlus notWsChar r0 (fun nm r1 =>
  greedyPlus wsChar r1 (fun _ r2 =>
  litChar '0' r2 (fun r3 =>
  litChar 'x' r3 (fun r4 =>
  greedyPlus hexDigitChar r4 (fun h1 r5 =>
  greedyPlus blankChar r5 (fun _ r6 =>
  litChar '0' r6 (fun r7 =>
  litChar 'x' r7 (fun r8 =>
  greedyPlus hexDigitChar r8 (fun h2 r9 =>
  greedyPlus blankChar r9 (fun _ r10 =>
  greedyPlus notCRLFChar r10 (fun f r11 =>
  some ({ name := '.' :: nm, vrom := h1, size := h2, file := f }, r11))))))))))))))

/-- Wrap a core matcher into one reporting the matched length. -/
def tryAtOf (core : List Char → Option (α × List Char)) (l : List Char) :
    Option (α × Nat) :=
  (core l).map (fun cr => (cr.1, l.length - cr.2.length))

/-- Scan `text` for all non-overlapping matches of a `^`-anchored
multi-line pattern, leftmost first: positions are tried in order, only
at the start of a line, and scanning resumes after each match.  The
first argument is fuel for structural recursion; the position advances
by at least one per step, so `text.length + 1` fuel is never exhausted
when starting from position 0. -/
def scanGo (tryAt : List Char → Option (α × Nat)) (text : List Char) :
    Nat → Nat → Bool → List (Nat × α)
  | 0, _, _ => []
  | fuel + 1, pos, ls =>
    if pos < text.length then
      if ls then
        match tryAt (text.drop pos) with
        | some (a, len) =>
          (pos, a) ::
            scanGo tryAt text fuel (pos + max 1 len)
              ((text.drop (pos + max 1 len - 1)).head? == some '\n')
        | none =>
          scanGo tryAt text fuel (pos + 1) ((text.drop pos).head? == some '\n')
      else scanGo tryAt text fuel (pos + 1) ((text.drop pos).head? == some '\n')
    else []

def scanMatches (tryAt : List Char → Option (α × Nat)) (text : List Char) :
    List (Nat × α) :=
  scanGo tryAt text (text.length + 1) 0 true

def gnuSectionMatches (text : List Char) : List (Nat × GnuSecCap) :=
  scanMatches (tryAtOf gnuSecTryCore) text

def gnuSubMatches (text : List Char) : List (Nat × GnuSubCap) :=
  scanMatches (tryAtOf gnuSubTryCore) text

/-- Build a `Section` from section captures; `none` models the panic of
the two `u64::from_str_radix(..).unwrap()` calls (overflow past u64). -/
def capToSection (c : GnuSecCap) : Option Section := do
  let v ← fromStrRadix16 c.vrom
  let s ← fromStrRadix16 c.size
  pure { name := String.mk c.name, start_vaddr := v, start_file_offset := none,
         size := s, subsections := [] }

/-- Build a `SubSection` from subsection captures (same panic model). -/
def capToSubSection (c : GnuSubCap) : Option SubSection := do
  let v ← fromStrRadix16 c.vrom
  let s ← fromStrRadix16 c.size
  pure { name := String.mk c.name, start_vaddr := v, start_file_offset := none,
         size := s, filename := String.mk c.file }

/-- Index of the first list element strictly greater than `o`. -/
def findFirstAbove (o : Nat) : List Nat → Option Nat
  | [] => none
  | s :: t => if o < s then some 0 else (findFirstAbove o t).map (· + 1)

/-- The `find_map`/`unwrap_or` computation of src/lib.rs lines 172-176:
index of the first section match offset greater than `o`, defaulting to
the number of sections. -/
def gnuAssignIndex (offsets : List Nat) (o : Nat) : Nat :=
  (findFirstAbove o offsets).getD offsets.length

/-- Push one parsed subsection into the section list (lines 177-179). -/
def gnuPlace (offsets : List Nat) (secs : List Section)
    (os : Nat × SubSection) : List Section :=
  let idx := gnuAssignIndex offsets os.1
  if 0 < idx then modifyIdx (pushSub os.2) secs (idx - 1) else secs

/-- Effectful map over a list in the `Option` monad (panic model):
`none` as soon as one element maps to `none`. -/
def optMapM (f : α → Option β) : List α → Option (List β)
  | [] => some []
  | a :: t => do
    let b ← f a
    let r ← optMapM f t
    pure (b :: r)

/-- Embeds `extract_gnu_mapfile`.  `none` models a panic of one of the
`from_str_radix(..).unwrap()` calls. -/
def extract_gnu_mapfile (text : List Char) : Option (List Section) := do
  let secMs := gnuSectionMatches text
  let subMs := gnuSubMatches text
  let sections ← optMapM (fun pc => capToSection pc.2) secMs
  let subs ← optMapM (fun pc => (capToSubSection pc.2).map (fun s => (pc.1, s))) subMs
  let offsets := secMs.map Prod.fst
  pure (subs.foldl (gnuPlace offsets) sections)

/-! ## LLVM parser (src/lib.rs lines 185-270) -/

/-- Captures of the LLVM `line_regex`:
`^(?:\s)*(?<vma>[0-9a-fA-F]+)(?:\s)*(?<lma>[0-9a-fA-F]+)(?:\s)*(?<size>[0-9a-fA-F]+)(?:\s)*(?<align>[0-9]+)(?<spaces>\s+)(?<name>.+)$`. -/
structure LlvmCap where
  vma : List Char
  lma : List Char
  size : List Char
  align : List Char
  spaces : List Char
  name : List Char
deriving DecidableEq, Repr

def notLFChar (c : Char) : Bool := c != '\n'

/-- Backtracking match of `line_regex` against a whole line. -/
def llvmLineMatch (l : List Char) : Option LlvmCap :=
  greedyStar wsChar l (fun _ r1 =>
  greedyPlus hexDigitChar r1 (fun vma r2 =>
  greedyStar wsChar r2 (fun _ r3 =>
  greedyPlus hexDigitChar r3 (fun lma r4 =>
  greedyStar wsChar r4 (fun _ r5 =>
  greedyPlus hexDigitChar r5 (fun size r6 =>
  greedyStar wsChar r6 (fun _ r7 =>
  greedyPlus decDigitChar r7 (fun align r8 =>
  greedyPlus wsChar r8 (fun spaces r9 =>
  if r9.isEmpty ∨ ¬ r9.all notLFChar then none
  else some { vma := vma, lma := lma, size := size, align := align,
              spaces := spaces, name := r9 })))))))))

/-- The local enum `EntryType` of `extract_llvm_mapfile`. -/
inductive EntryType where
  | sec : Section → EntryType
  | sub : SubSection → EntryType
deriving DecidableEq, Repr

def plusHexLit : List Char := "+0x".data
def colonParenLit : List Char := ":(".data

/-- The subsection-name normalization of src/lib.rs lines 206-214:
remove a trailing `+0x<hexdigits>` suffix, located with `rfind`. -/
def llvmStripName (name : List Char) : List Char :=
  match rfindSubstrIdx name plusHexLit with
  | some p => if (name.drop (p + 3)).all hexDigitChar then name.take p else name
  | none => name

/-- Embeds `capture_to_entry_type`.  The outer `Option` is the panic
model: `none` when `from_str_radix(..).unwrap()` overflows or when
`split_once(":(").unwrap()` fails; `some none` is the symbol row case. -/
def capture_to_entry_type (m : LlvmCap) (out_in_space : Nat) :
    Option (Option EntryType) := do
  let start_vaddr ← fromStrRadix16 m.vma
  let size ← fromStrRadix16 m.size
  if m.spaces.length = 1 then
    pure (some (.sec { name := String.mk m.name, start_vaddr := start_vaddr,
                       start_file_offset := none, size := size, subsections := [] }))
  else if m.spaces.length = 1 + 3 + out_in_space then
    let inner := m.name.dropLast
    match findSubstrIdx inner colonParenLit with
    | none => none
    | some i =>
      let filename := inner.take i
      let nm := llvmStripName (inner.drop (i + 2))
      pure (some (.sub { name := String.mk nm, start_vaddr := start_vaddr,
                         start_file_offset := none, size := size,
                         filename := String.mk filename }))
  else
    pure none

/-- The `for line in lines` loop of `extract_llvm_mapfile`. -/
def llvmLoop (out_in_len : Nat) :
    List (List Char) → Section → List Section → Option (List Section)
  | [], cur, acc => some (acc ++ [cur])
  | l :: ls, cur, acc =>
    match llvmLineMatch l with
    | none => llvmLoop out_in_len ls cur acc
    | some cap =>
      match capture_to_entry_type cap out_in_len with
      | none => none
      | some none => llvmLoop out_in_len ls cur acc
      | some (some (.sec s)) => llvmLoop out_in_len ls s (acc ++ [cur])
      | some (some (.sub ss)) => llvmLoop out_in_len ls (pushSub ss cur) acc

/-- Embeds `extract_llvm_mapfile`: skip the first line, require the
first matching data line to be a section header, then fold the rest.
`none` models a panic inside `capture_to_entry_type`. -/
def extract_llvm_mapfile (text : List Char) (out_in_len : Nat) :
    Option (List Section) :=
  match (rustLines text).drop 1 with
  | [] => some []
  | l :: ls =>
    match llvmLineMatch l with
    | none => some []
    | some cap =>
      match capture_to_entry_type cap out_in_len with
      | none => none
      | some (some (.sec s)) => llvmLoop out_in_len ls s []
      | some (some (.sub _)) => some []
      | some none => some []

/-! ## MSVC parser (src/lib.rs lines 272-365) -/

/-- Captures of the MSVC `line_regex`:
`^ (?<section>[0-9a-zA-Z]{4}):(?<section_offset>[0-9a-zA-Z]{8})\s+(?<name>[^ ]+)\s+(?<vaddr>[0-9a-zA-Z]{16})(?: \w)?\s+(?<origin>.+)$`
(the `section` capture is called `sec` here, `section` being a Lean
keyword). -/
structure MsvcCap where
  sec : List Char
  section_offset : List Char
  name : List Char
  vaddr : List Char
  origin : List Char
deriving DecidableEq, Repr

def notSpaceChar (c : Char) : Bool := c != ' '

/-- Backtracking match of the MSVC row regex against a whole line. -/
def msvcLineMatch (l : List Char) : Option MsvcCap :=
  litChar ' ' l (fun r0 =>
  exactClass alnumChar 4 r0 (fun s4 r1 =>
  litChar ':' r1 (fun r2 =>
  exactClass alnumChar 8 r2 (fun o8 r3 =>
  greedyPlus wsChar r3 (fun _ r4 =>
  greedyPlus notSpaceChar r4 (fun nm r5 =>
  greedyPlus wsChar r5 (fun _ r6 =>
  exactClass alnumChar 16 r6 (fun va r7 =>
  optGroup
    (fun l2 k2 =>
      litChar ' ' l2 (fun t =>
        match t with
        | [] => none
        | c :: t2 => if wordChar c then k2 t2 else none))
    r7 (fun r8 =>
  greedyPlus wsChar r8 (fun _ r9 =>
  if r9.isEmpty ∨ ¬ r9.all notLFChar then none
  else some { sec := s4, section_offset := o8, name := nm, vaddr := va,
              origin := r9 }))))))))))

/-- The mutable state of the `extract_msvc_mapfile` loop. -/
structure MsvcSt where
  res : List Section
  current_filename : Option String
  current_start_offset : Nat
  current_section_nb : Nat
  prev_section_offset : Nat
deriving Repr

def msvcInit : MsvcSt :=
  { res := [], current_filename := none, current_start_offset := 0,
    current_section_nb := 0, prev_section_offset := 0 }

def emptySection : Section :=
  { name := "", start_vaddr := 0, start_file_offset := none, size := 0,
    subsections := [] }

/-- The `while res.len() <= section_nb` placeholder growth. -/
def growTo (res : List Section) (section_nb : Nat) : List Section :=
  res ++ List.replicate (section_nb + 1 - res.length) emptySection

/-- Computes `prev_section_offset - current_start_offset + 1` in wrapping u64. -/
def msvcRunSize (prev cur : Nat) : Nat := u64add (u64sub prev cur) 1

/-- Push the in-progress run as a subsection of `res[current_section_nb]`. -/
def msvcFlushSub (st : MsvcSt) (f : String) : List Section :=
  modifyIdx
    (pushSub { name := "", start_vaddr := st.current_start_offset,
               start_file_offset := none,
               size := msvcRunSize st.prev_section_offset st.current_start_offset,
               filename := f })
    st.res st.current_section_nb

/-- The `for line in lines` loop of `extract_msvc_mapfile`; a line that
fails the row regex breaks the loop. -/
def msvcLoop : List (List Char) → MsvcSt → Except GenealogyError MsvcSt
  | [], st => .ok st
  | l :: ls, st =>
    match msvcLineMatch l with
    | none => .ok st
    | some cap =>
      match fromStrRadix16 cap.sec with
      | none => .error .WrongMapfileFormat
      | some section_nb =>
        match fromStrRadix16 cap.section_offset with
        | none => .error .WrongMapfileFormat
        | some section_offset =>
          let res := growTo st.res section_nb
          let filename := String.mk (cap.origin.takeWhile (fun c => c != ':'))
          match st.current_filename with
          | none =>
            msvcLoop ls
              { res := res, current_filename := some filename,
                current_start_offset := section_offset,
                current_section_nb := st.current_section_nb,
                prev_section_offset := section_offset }
          | some curf =>
            if curf ≠ filename ∨ st.current_section_nb ≠ section_nb then
              msvcLoop ls
                { res := msvcFlushSub { st with res := res } curf,
                  current_filename := some filename,
                  current_start_offset := section_offset,
                  current_section_nb := section_nb,
                  prev_section_offset := section_offset }
            else
              msvcLoop ls { st with res := res, prev_section_offset := section_offset }

def staticAnchor : List Char := " Static symbols".data
def preferredAnchor : List Char := "Preferred load address is ".data

/-- Embeds `extract_msvc_mapfile`. -/
def extract_msvc_mapfile (text : List Char) : Except GenealogyError (List Section) :=
  match findSubstrIdx text staticAnchor with
  | none => .error .WrongMapfileFormat
  | some off =>
    match msvcLoop ((rustLines (text.drop off)).drop 2) msvcInit with
    | .error e => .error e
    | .ok st =>
      match st.current_filename with
      | none => .ok st.res
      | some f => .ok (msvcFlushSub st f)

/-! ## Reconcilers (src/lib.rs lines 367-413)

The binary parsers are external collaborators (goblin).  An ELF view is
the section header table as pairs (name resolved through `shdr_strtab`,
`sh_offset`); a PE view is the list of `pointer_to_raw_data` values of
`pe.sections`. -/

/-- Lookup in the `HashMap` built by `collect` on the header iterator:
when several headers share a name the last insertion wins. -/
def lookupElf (elf : List (String × Nat)) (name : String) : Option Nat :=
  match elf with
  | [] => none
  | e :: t =>
    match lookupElf t name with
    | some o => some o
    | none => if e.1 = name then some e.2 else none

/-- The per-section body of the `for_each` in `map_sections_to_elf`:
assign the looked-up `sh_offset` and propagate
`ssection.start_vaddr - section.start_vaddr + file_offset` (wrapping
u64 arithmetic) to every subsection of a matched section. -/
def elfMapSec (elf : List (String × Nat)) (s : Section) : Section :=
  match lookupElf elf s.name with
  | none => { s with start_file_offset := none }
  | some off =>
    { s with start_file_offset := some off,
             subsections := s.subsections.map (fun ss =>
               let fo := u64add (u64sub ss.start_vaddr s.start_vaddr) off
               { ss with start_file_offset := some fo }) }

/-- Embeds `map_sections_to_elf`. -/
def map_sections_to_elf (sections : List Section) (elf : List (String × Nat)) :
    List Section :=
  sections.map (elfMapSec elf)

/-- Embeds `map_msvc_sections_to_pe`: section index 0 is skipped,
section `i` pairs with PE section `i - 1`, and every subsection gets
`pointer_to_raw_data + start_vaddr`. -/
def map_msvc_sections_to_pe (sections : List Section) (pe : List Nat) :
    List Section :=
  sections.mapIdx (fun i s =>
    if i = 0 then s
    else
      match pe.get? (i - 1) with
      | none => s
      | some ptr =>
        { s with subsections := s.subsections.map (fun ss =>
            { ss with start_file_offset := some (u64add ptr ss.start_vaddr) }) })

/-! ## Dialect detection and facade (src/lib.rs lines 72-129) -/

def litVMA : List Char := "VMA".data
def litLMA : List Char := "LMA".data
def litSize : List Char := "Size".data
def litAlign : List Char := "Align".data
def litOut : List Char := "Out".data
def litIn : List Char := "In".data
def litSymbol : List Char := "Symbol".data

/-- Match the LLVM banner `header_regex`
`VMA(?:\s+)LMA(?:\s+)Size(?:\s+)Align(?:\s+)Out(?<out_in_space>\s+)In(?:\s+)Symbol`
at the head of `l`, returning the length of the `out_in_space` capture. -/
def bannerTryAt (l : List Char) : Option Nat :=
  litStr litVMA l (fun r0 =>
  greedyPlus wsChar r0 (fun _ r1 =>
  litStr litLMA r1 (fun r2 =>
  greedyPlus wsChar r2 (fun _ r3 =>
  litStr litSize r3 (fun r4 =>
  greedyPlus wsChar r4 (fun _ r5 =>
  litStr litAlign r5 (fun r6 =>
  greedyPlus wsChar r6 (fun _ r7 =>
  litStr litOut r7 (fun r8 =>
  greedyPlus wsChar r8 (fun g r9 =>
  litStr litIn r9 (fun r10 =>
  greedyPlus wsChar r10 (fun _ r11 =>
  litStr litSymbol r11 (fun _ => some g.length)))))))))))))

/-- Leftmost match of the banner regex anywhere in the text
(`header_regex.captures(mapfile)`). -/
def bannerFind : List Char → Option Nat
  | [] => none
  | c :: t =>
    match bannerTryAt (c :: t) with
    | some g => some g
    | none => bannerFind t

/-- Embeds `extract_mapfile`: dialect dispatch.  The outer `Option` is
the panic model inherited from the GNU/LLVM parsers. -/
def extract_mapfile (text : List Char) :
    Option (Except GenealogyError (List Section)) :=
  match bannerFind text with
  | some gap => (extract_llvm_mapfile text gap).map Except.ok
  | none =>
    if containsSubstr text preferredAnchor then some (extract_msvc_mapfile text)
    else (extract_gnu_mapfile text).map Except.ok

/-- Result of goblin's `Object::parse`, as consumed by `Genealogy::new`:
an ELF view, a PE view, some other recognized object kind (the `_` arm),
or a parse error (the `map_err` case). -/
inductive BinParse where
  | elf : List (String × Nat) → BinParse
  | pe : List Nat → BinParse
  | other : BinParse
  | unparsable : BinParse
deriving DecidableEq, Repr

/-- The interval index: the `intervaltree` collaborator is modelled as
its element list, in insertion order. -/
structure Genealogy where
  intervals : List (Nat × Nat × String)
deriving DecidableEq, Repr

/-- The interval ingestion of `Genealogy::new` (src/lib.rs lines 87-99):
every subsection with a resolved `start_file_offset` contributes
`(file_offset, file_offset + size, filename)`; size is not examined. -/
def buildIntervals (sections : List Section) : List (Nat × Nat × String) :=
  (sections.flatMap (fun s => s.subsections)).filterMap (fun ss =>
    ss.start_file_offset.map (fun fo => (fo, u64add fo ss.size, ss.filename)))

/-- Embeds `Genealogy::new`.  The outer `Option` is the panic model. -/
def genealogyNew (mapfile : List Char) (binary : BinParse) :
    Option (Except GenealogyError Genealogy) := do
  let r ← extract_mapfile mapfile
  match r with
  | .error e => pure (.error e)
  | .ok sections =>
    match binary with
    | .unparsable => pure (.error .UnsupportedBinaryFormat)
    | .other => pure (.error .UnsupportedBinaryFormat)
    | .elf elf => pure (.ok ⟨buildIntervals (map_sections_to_elf sections elf)⟩)
    | .pe pe => pure (.ok ⟨buildIntervals (map_msvc_sections_to_pe sections pe)⟩)

/-- Embeds `Genealogy::query`: the intervaltree collaborator returns the
elements whose half-open range overlaps the query range, i.e. those
with `start < hi` and `lo < end` (modelled from the crate's documented
contract). -/
def queryRange (g : Genealogy) (lo hi : Nat) : List (Nat × Nat × String) :=
  g.intervals.filter (fun e => e.1 < hi && lo < e.2.1)

/-- Embeds `Genealogy::query_point`: the elements whose range contains the
point, i.e. those with `start ≤ p < end`. -/
def queryPoint (g : Genealogy) (p : Nat) : List (Nat × Nat × String) :=
  g.intervals.filter (fun e => e.1 ≤ p && p < e.2.1)

instance {ε α : Type} [DecidableEq ε] [DecidableEq α] : DecidableEq (Except ε α) :=
  fun a b =>
    match a, b with
    | .ok x, .ok y => decidable_of_iff (x = y) (by simp)
    | .error x, .error y => decidable_of_iff (x = y) (by simp)
    | .ok _, .error _ => isFalse (by simp)
    | .error _, .ok _ => isFalse (by simp)

/-! ## Theorems -/

/-- C9: `query_point(p)` returns the same hits as `query(p..p+1)`, for
any index and any point whose successor does not overflow u64. -/
theorem query_point_eq_range (g : Genealogy) (p : Nat) (h : p + 1 < U64) :
    queryPoint g p = queryRange g p (p + 1) := by
  unfold queryPoint queryRange
  refine List.filter_congr (fun e _ => ?_)
  have hd : (decide (e.1 ≤ p) : Bool) = decide (e.1 < p + 1) :=
    decide_eq_decide.mpr (by omega)
  rw [hd]

/-- C9 witness: the equivalence at a concrete index and point. -/
theorem query_point_eq_range_witness :
    queryPoint ⟨[(2, 6, "a.o"), (6, 6, "a.o"), (5, 9, "b.o")]⟩ 5 =
      queryRange ⟨[(2, 6, "a.o"), (6, 6, "a.o"), (5, 9, "b.o")]⟩ 5 6 :=
  query_point_eq_range ⟨[(2, 6, "a.o"), (6, 6, "a.o"), (5, 9, "b.o")]⟩ 5 (by decide)

def c7Sub : SubSection :=
  { name := ".x", start_vaddr := 0, start_file_offset := some 5, size := 0,
    filename := "f.o" }

def c7Sec : Section :=
  { name := ".t", start_vaddr := 0, start_file_offset := some 5, size := 0x10,
    subsections := [c7Sub] }

/-- C7 counterexample: a subsection with a resolved `start_file_offset`
and `size = 0` does contribute an (empty) interval to the index: the
ingestion of `Genealogy::new` never examines `size`. -/
theorem ingestion_size_zero_emitted :
    buildIntervals [c7Sec] = [(5, 5, "f.o")] ∧ buildIntervals [c7Sec] ≠ [] := by
  constructor
  · rfl
  · decide

/-- C7 amended: ingestion emits a tuple exactly for the subsections
with a resolved `start_file_offset` (a `size = 0` subsection contributes
an empty interval); `query_point` never returns such an empty interval,
so every `query_point` hit stems from a subsection of positive size. -/
theorem ingestion_amended :
    (∀ (sections : List Section) (e : Nat × Nat × String),
      e ∈ buildIntervals sections ↔
        ∃ ss ∈ sections.flatMap (fun s => s.subsections),
          ss.start_file_offset = some e.1 ∧ e.2.1 = u64add e.1 ss.size ∧
          e.2.2 = ss.filename) ∧
    (∀ (sections : List Section) (p : Nat) (e : Nat × Nat × String),
      e ∈ queryPoint ⟨buildIntervals sections⟩ p →
        ∃ ss ∈ sections.flatMap (fun s => s.subsections),
          ss.start_file_offset = some e.1 ∧ 0 < ss.size ∧
          e.2.1 = u64add e.1 ss.size ∧ e.2.2 = ss.filename) := by
  have main : ∀ (sections : List Section) (e : Nat × Nat × String),
      e ∈ buildIntervals sections ↔
        ∃ ss ∈ sections.flatMap (fun s => s.subsections),
          ss.start_file_offset = some e.1 ∧ e.2.1 = u64add e.1 ss.size ∧
          e.2.2 = ss.filename := by
    intro sections e
    unfold buildIntervals
    rw [List.mem_filterMap]
    constructor
    · rintro ⟨ss, hss, hmap⟩
      rcases Option.map_eq_some'.mp hmap with ⟨fo, hfo, heq⟩
      refine ⟨ss, hss, ?_, ?_, ?_⟩
      · rw [hfo, ← heq]
      · rw [← heq]
      · rw [← heq]
    · rintro ⟨ss, hss, h1, h2, h3⟩
      refine ⟨ss, hss, ?_⟩
      rw [h1]
      simp only [Option.map_some']
      obtain ⟨e1, e2, e3⟩ := e
      simp only at h2 h3 ⊢
      rw [h2, h3]
  refine ⟨main, ?_⟩
  intro sections p e he
  unfold queryPoint at he
  rw [List.mem_filter] at he
  obtain ⟨hmem, hcond⟩ := he
  rcases (main sections e).mp hmem with ⟨ss, hss, h1, h2, h3⟩
  refine ⟨ss, hss, h1, ?_, h2, h3⟩
  by_contra hz
  have hsz : ss.size = 0 := Nat.eq_zero_of_not_pos hz
  have hlt : e.1 < e.2.1 := by
    have := of_decide_eq_true (Bool.and_elim_right hcond)
    have h1' := of_decide_eq_true (Bool.and_elim_left hcond)
    omega
  rw [h2, hsz] at hlt
  have : u64add e.1 0 ≤ e.1 := by
    unfold u64add
    simpa using Nat.mod_le e.1 U64
  omega

def c7SecPos : Section :=
  { name := ".t", start_vaddr := 0, start_file_offset := some 5, size := 0x10,
    subsections := [{ name := ".y", start_vaddr := 0, start_file_offset := some 5,
                      size := 3, filename := "f.o" }] }

/-- C7 witness: the amended characterization applied at the size-zero
subsection of the counterexample and at a concrete positive-size
`query_point` hit. -/
theorem ingestion_amended_witness :
    ((5, 5, "f.o") ∈ buildIntervals [c7Sec] ↔
      ∃ ss ∈ [c7Sec].flatMap (fun s => s.subsections),
        ss.start_file_offset = some 5 ∧ 5 = u64add 5 ss.size ∧
        "f.o" = ss.filename) ∧
    (∃ ss ∈ [c7SecPos].flatMap (fun s => s.subsections),
        ss.start_file_offset = some 5 ∧ 0 < ss.size ∧
        (8 : Nat) = u64add 5 ss.size ∧ "f.o" = ss.filename) :=
  ⟨ingestion_amended.1 [c7Sec] (5, 5, "f.o"),
   ingestion_amended.2 [c7SecPos] 6 (5, 8, "f.o") (by decide)⟩

/-- A minimal MSVC-classified mapfile: the preferred-load banner and an
empty Static symbols listing. -/
def msvcMiniText : List Char :=
  ("Preferred load address is 00400000\n Static symbols\n\n").data

/-- C1 counterexample: an MSVC mapfile together with an ELF binary is
not rejected — `Genealogy::new` matches only on the binary kind, so the
ELF reconciler runs and the build succeeds. -/
theorem msvc_elf_not_rejected :
    genealogyNew msvcMiniText (BinParse.elf [(".text", 0x1000)]) =
      some (Except.ok ⟨[]⟩) ∧
    genealogyNew msvcMiniText (BinParse.elf [(".text", 0x1000)]) ≠
      some (Except.error GenealogyError.UnsupportedBinaryFormat) := by
  constructor
  · rfl
  · decide

/-- C1 amended: when the mapfile parses, `Genealogy::new` returns
`UnsupportedBinaryFormat` exactly when the binary fails to parse or
parses as neither ELF nor PE; the mapfile dialect is not consulted in
the dispatch. -/
theorem new_unsupported_iff_not_elf_pe (m : List Char) (s : List Section)
    (b : BinParse) (h : extract_mapfile m = some (Except.ok s)) :
    (genealogyNew m b = some (Except.error GenealogyError.UnsupportedBinaryFormat) ↔
      b = BinParse.other ∨ b = BinParse.unparsable) := by
  cases b <;> simp [genealogyNew, h]

/-- C1 witness: the amended dispatch rule at a concrete mapfile and a
concrete non-ELF/PE binary. -/
theorem new_unsupported_iff_witness :
    genealogyNew [] BinParse.other =
        some (Except.error GenealogyError.UnsupportedBinaryFormat) ↔
      BinParse.other = BinParse.other ∨ BinParse.other = BinParse.unparsable :=
  new_unsupported_iff_not_elf_pe [] [] BinParse.other (by decide)

/-- C8: a mapfile classified as MSVC (no LLVM banner, contains the
preferred-load anchor) without the literal `" Static symbols"` anchor
makes the MSVC parser, and hence the build for any binary, fail with
`WrongMapfileFormat`. -/
theorem msvc_missing_anchor_wrong_format (text : List Char)
    (h1 : bannerFind text = none)
    (h2 : containsSubstr text preferredAnchor = true)
    (h3 : findSubstrIdx text staticAnchor = none) :
    extract_mapfile text = some (Except.error GenealogyError.WrongMapfileFormat) ∧
    ∀ b, genealogyNew text b =
        some (Except.error GenealogyError.WrongMapfileFormat) := by
  have he : extract_mapfile text =
      some (Except.error GenealogyError.WrongMapfileFormat) := by
    simp [extract_mapfile, h1, h2, extract_msvc_mapfile, h3]
  exact ⟨he, fun b => by simp [genealogyNew, he]⟩

/-- C8 witness: the rejection at a concrete anchor-free MSVC mapfile. -/
theorem msvc_missing_anchor_witness :
    extract_mapfile ("Preferred load address is 00400000\n").data =
      some (Except.error GenealogyError.WrongMapfileFormat) ∧
    ∀ b, genealogyNew ("Preferred load address is 00400000\n").data b =
        some (Except.error GenealogyError.WrongMapfileFormat) :=
  msvc_missing_anchor_wrong_format ("Preferred load address is 00400000\n").data
    (by decide) (by decide) (by decide)

/-- The S5 scenario of the spec: an MSVC static-symbols listing with a
run of three `a.obj` symbols in section 0001 followed by one `b.obj`
symbol. -/
def msvcS5Text : List Char :=
  ("Preferred load address is 00400000\n Static symbols\n\n 0001:00000010       _a1 0000000000000000  a.obj\n 0001:00000020       _a2 0000000000000000  a.obj\n 0001:00000030       _a3 0000000000000000  a.obj\n 0001:00000040       _b1 0000000000000000  b.obj\n").data

def c2Sec0 : Section :=
  { name := "", start_vaddr := 0, start_file_offset := none, size := 0,
    subsections := [{ name := "", start_vaddr := 0x10, start_file_offset := none,
                      size := 1, filename := "a.obj" }] }

def c2Sec1 : Section :=
  { name := "", start_vaddr := 0, start_file_offset := none, size := 0,
    subsections := [{ name := "", start_vaddr := 0x20, start_file_offset := none,
                      size := 0x11, filename := "a.obj" },
                    { name := "", start_vaddr := 0x40, start_file_offset := none,
                      size := 1, filename := "b.obj" }] }

def c2Sec1PE : Section :=
  { name := "", start_vaddr := 0, start_file_offset := none, size := 0,
    subsections := [{ name := "", start_vaddr := 0x20,
                      start_file_offset := some 0x420, size := 0x11,
                      filename := "a.obj" },
                    { name := "", start_vaddr := 0x40,
                      start_file_offset := some 0x440, size := 1,
                      filename := "b.obj" }] }

/-- C2: what the code actually produces on the S5 scenario.  The first
`a.obj` run is broken at the first row because `current_section_nb` is
initialized to 0 and not set when the first row starts the run: a stray
size-1 subsection `(0x10, 1, a.obj)` lands in placeholder section 0,
and section 1 receives `(0x20, 0x11, a.obj)` and `(0x40, 1, b.obj)`
instead of the intended `(0x10, 0x21, a.obj)` and `(0x40, 1, b.obj)`;
after PE reconciliation with `pointer_to_raw_data = 0x400` the resolved
offsets are `0x420` and `0x440`, not `0x410` and `0x440`. -/
theorem msvc_s5_code_behavior :
    extract_msvc_mapfile msvcS5Text = Except.ok [c2Sec0, c2Sec1] ∧
    map_msvc_sections_to_pe [c2Sec0, c2Sec1] [0x400] = [c2Sec0, c2Sec1PE] := by
  constructor
  · rfl
  · rfl

/-! ### Lemmas about `rfindSubstrIdx`, for the name-stripping claim -/

theorem rfind_matches_at {hay pat : List Char} {j : Nat}
    (h : rfindSubstrIdx hay pat = some j) :
    pat.isPrefixOf (hay.drop j) = true := by
  induction hay generalizing j with
  | nil =>
    unfold rfindSubstrIdx at h
    split at h
    · cases h
      simp_all [List.isEmpty_iff, List.isPrefixOf]
    · cases h
  | cons c t ih =>
    unfold rfindSubstrIdx at h
    cases hr : rfindSubstrIdx t pat with
    | some i =>
      rw [hr] at h
      simp only [Option.map_some'] at h
      cases h
      simpa using ih hr
    | none =>
      rw [hr] at h
      simp only [Option.map_none'] at h
      split at h
      · rename_i hcond
        cases h
        simpa using hcond
      · cases h

theorem rfind_none {hay pat : List Char} (hne : pat ≠ [])
    (h : rfindSubstrIdx hay pat = none) :
    ∀ k, pat.isPrefixOf (hay.drop k) = false := by
  induction hay with
  | nil =>
    intro k
    cases pat with
    | nil => exact absurd rfl hne
    | cons p ps => simp [List.isPrefixOf]
  | cons c t ih =>
    unfold rfindSubstrIdx at h
    cases hr : rfindSubstrIdx t pat with
    | some i => rw [hr] at h; cases h
    | none =>
      rw [hr] at h
      simp only [Option.map_none'] at h
      split at h
      · cases h
      · rename_i hcond
        intro k
        cases k with
        | zero =>
          simp only [List.drop_zero]
          exact (Bool.not_eq_true _) ▸ hcond
        | succ k' =>
          simpa using ih hr k'

theorem rfind_maximal {hay pat : List Char} {j : Nat} (hne : pat ≠ [])
    (h : rfindSubstrIdx hay pat = some j) :
    ∀ k, j < k → pat.isPrefixOf (hay.drop k) = false := by
  induction hay generalizing j with
  | nil =>
    unfold rfindSubstrIdx at h
    split at h
    · exact absurd (List.isEmpty_iff.mp (by assumption)) hne
    · cases h
  | cons c t ih =>
    unfold rfindSubstrIdx at h
    cases hr : rfindSubstrIdx t pat with
    | some i =>
      rw [hr] at h
      simp only [Option.map_some'] at h
      cases h
      intro k hk
      cases k with
      | zero => omega
      | succ k' =>
        simpa using ih hr k' (by omega)
    | none =>
      rw [hr] at h
      simp only [Option.map_none'] at h
      split at h
      · cases h
        intro k hk
        cases k with
        | zero => omega
        | succ k' => simpa using rfind_none hne hr k'
      · cases h

theorem rfind_exists {hay pat : List Char} {i : Nat} (hne : pat ≠ [])
    (hp : pat.isPrefixOf (hay.drop i) = true) :
    ∃ j, i ≤ j ∧ rfindSubstrIdx hay pat = some j := by
  induction hay generalizing i with
  | nil =>
    rw [List.drop_nil] at hp
    cases pat with
    | nil => exact absurd rfl hne
    | cons p ps => simp [List.isPrefixOf] at hp
  | cons c t ih =>
    cases i with
    | zero =>
      cases hr : rfindSubstrIdx t pat with
      | some m =>
        refine ⟨m + 1, by omega, ?_⟩
        unfold rfindSubstrIdx
        rw [hr]
        rfl
      | none =>
        refine ⟨0, le_refl 0, ?_⟩
        unfold rfindSubstrIdx
        rw [hr]
        simp only [Option.map_none']
        rw [List.drop_zero] at hp
        simp [hp]
    | succ i' =>
      rw [List.drop_succ_cons] at hp
      obtain ⟨j, hij, hj⟩ := ih hp
      refine ⟨j + 1, by omega, ?_⟩
      unfold rfindSubstrIdx
      rw [hj]
      rfl

theorem hexDigit_ne_plus {c : Char} (h : hexDigitChar c = true) : c ≠ '+' := by
  intro he
  subst he
  exact absurd h (by decide)

theorem plusHexLit_eq : plusHexLit = ['+', '0', 'x'] := rfl

/-- C6 part 1 core: `rfind` locates the final `+0x` when what follows
it is all hex digits. -/
theorem rfind_plusHex_append {a d : List Char} (hd : d.all hexDigitChar = true) :
    rfindSubstrIdx (a ++ ('+' :: '0' :: 'x' :: d)) plusHexLit = some a.length := by
  have hne : plusHexLit ≠ [] := by decide
  have hpre : plusHexLit.isPrefixOf ((a ++ ('+' :: '0' :: 'x' :: d)).drop a.length)
      = true := by
    rw [List.drop_left]
    rw [plusHexLit_eq]
    simp [List.isPrefixOf]
  obtain ⟨j, hij, hj⟩ := rfind_exists hne hpre
  rcases Nat.lt_or_ge a.length j with hlt | hge
  · exfalso
    have hub := rfind_matches_at hj
    have hdrop : (a ++ ('+' :: '0' :: 'x' :: d)).drop j =
        ('+' :: '0' :: 'x' :: d).drop (j - a.length) := by
      rw [List.drop_append_eq_append_drop]
      have : a.drop j = [] := List.drop_eq_nil_of_le (by omega)
      rw [this, List.nil_append]
    rw [hdrop] at hub
    rcases hk : j - a.length with _ | k1
    · omega
    rcases hk1 : k1 with _ | k2
    · subst hk1
      rw [hk] at hub
      rw [plusHexLit_eq] at hub
      simp [List.isPrefixOf] at hub
    rcases hk2 : k2 with _ | k3
    · subst hk1 hk2
      rw [hk] at hub
      rw [plusHexLit_eq] at hub
      simp [List.isPrefixOf] at hub
    · subst hk1 hk2
      rw [hk] at hub
      simp only [List.drop_succ_cons] at hub
      cases hdk : d.drop k3 with
      | nil =>
        rw [hdk] at hub
        rw [plusHexLit_eq] at hub
        simp [List.isPrefixOf] at hub
      | cons e es =>
        rw [hdk] at hub
        rw [plusHexLit_eq] at hub
        simp only [List.isPrefixOf, List.isPrefixOf_cons₂] at hub
        have he : e ∈ d := by
          have : e ∈ d.drop k3 := by rw [hdk]; exact List.mem_cons_self e es
          exact List.mem_of_mem_drop this
        have : hexDigitChar e = true := by
          have := List.all_eq_true.mp hd e he
          simpa using this
        have : e ≠ '+' := hexDigit_ne_plus this
        simp only [Bool.and_eq_true, beq_iff_eq] at hub
        exact this hub.1.symm
  · have : j = a.length := by omega
    subst this
    exact hj

/-- C6: the LLVM subsection-name normalization strips a final
`+0x<hexdigits>` suffix (located by `rfind`), and leaves the name
unchanged when the characters after the last `+0x` are not all hex
digits, or when no `+0x` occurs at all. -/
theorem llvm_name_stripping :
    (∀ a d : List Char, d.all hexDigitChar = true →
      llvmStripName (a ++ ('+' :: '0' :: 'x' :: d)) = a) ∧
    (∀ nm p, rfindSubstrIdx nm plusHexLit = some p →
      (nm.drop (p + 3)).all hexDigitChar = false → llvmStripName nm = nm) ∧
    (∀ nm, rfindSubstrIdx nm plusHexLit = none → llvmStripName nm = nm) := by
  refine ⟨?_, ?_, ?_⟩
  · intro a d hd
    have hdrop : (a ++ ('+' :: '0' :: 'x' :: d)).drop (a.length + 3) = d := by
      rw [List.drop_append_eq_append_drop]
      have h1 : a.drop (a.length + 3) = [] := List.drop_eq_nil_of_le (by omega)
      rw [h1, List.nil_append]
      have h2 : a.length + 3 - a.length = 3 := by omega
      rw [h2]
      rfl
    simp [llvmStripName, rfind_plusHex_append hd, hdrop, hd, List.take_left]
  · intro nm p hp hall
    simp [llvmStripName, hp, hall]
  · intro nm hnone
    simp [llvmStripName, hnone]

/-- C6 witness: stripping applied to `malloc.o+0x40` (S3) and
non-stripping applied to `helper+0xZ` (S4). -/
theorem llvm_name_stripping_witness :
    llvmStripName ("malloc.o".data ++ ('+' :: '0' :: 'x' :: ['4', '0'])) =
        "malloc.o".data ∧
    llvmStripName "helper+0xZ".data = "helper+0xZ".data :=
  ⟨llvm_name_stripping.1 "malloc.o".data ['4', '0'] (by decide),
   llvm_name_stripping.2.1 "helper+0xZ".data 6 (by decide) (by decide)⟩

/-! ### The ELF reconciler claim -/

theorem lookupElf_mem {elf : List (String × Nat)} {n : String} {off : Nat}
    (h : lookupElf elf n = some off) : (n, off) ∈ elf := by
  induction elf with
  | nil => cases h
  | cons e t ih =>
    unfold lookupElf at h
    cases hr : lookupElf t n with
    | some o =>
      rw [hr] at h
      cases h
      exact List.mem_cons_of_mem e (ih hr)
    | none =>
      rw [hr] at h
      by_cases hn : e.1 = n
      · rw [if_pos hn] at h
        cases h
        exact List.mem_cons.mpr (Or.inl (by cases e; simp_all))
      · rw [if_neg hn] at h
        cases h

theorem lookupElf_none_iff {elf : List (String × Nat)} {n : String} :
    lookupElf elf n = none ↔ ∀ off, (n, off) ∉ elf := by
  induction elf with
  | nil => simp [lookupElf]
  | cons e t ih =>
    unfold lookupElf
    cases hr : lookupElf t n with
    | some o =>
      simp only [hr]
      constructor
      · intro h; cases h
      · intro h
        exact absurd (List.mem_cons_of_mem e (lookupElf_mem hr)) (h o)
    | none =>
      simp only [hr]
      by_cases hn : e.1 = n
      · rw [if_pos hn]
        constructor
        · intro h; cases h
        · intro h
          exfalso
          exact h e.2 (List.mem_cons.mpr (Or.inl (by cases e; simp_all)))
      · rw [if_neg hn]
        constructor
        · intro _ off hmem
          rcases List.mem_cons.mp hmem with he | ht
          · exact hn (by cases e; simp_all)
          · exact (ih.mp hr) off ht
        · intro _
          rfl

theorem getD_map_of_lt {α β : Type} (f : α → β) (l : List α) (i : Nat)
    (h : i < l.length) (d : β) (d' : α) :
    (l.map f).getD i d = f (l.getD i d') := by
  induction l generalizing i with
  | nil => simp at h
  | cons a t ih =>
    cases i with
    | zero => rfl
    | succ n =>
      simp only [List.map_cons, List.getD_cons_succ]
      exact ih n (by simpa using h)

/-- C5: the ELF reconciler sets `start_file_offset` to the looked-up
`sh_offset` on every section whose name occurs in the header table and
propagates `sh_offset + (subsection.start_vaddr - section.start_vaddr)`
(as u64) to each of its subsections; a section whose name is absent has
`start_file_offset` unset and its subsections untouched. -/
theorem elf_reconciler_offsets (secs : List Section) (elf : List (String × Nat)) :
    map_sections_to_elf secs elf = secs.map (elfMapSec elf) ∧
    ∀ s : Section,
      ((∀ off, (s.name, off) ∉ elf) →
        elfMapSec elf s = { s with start_file_offset := none }) ∧
      ((∃ off0, (s.name, off0) ∈ elf) →
        ∃ off, (s.name, off) ∈ elf ∧
          (elfMapSec elf s).start_file_offset = some off ∧
          (elfMapSec elf s).subsections.length = s.subsections.length ∧
          ∀ j, j < s.subsections.length →
            s.start_vaddr ≤ (s.subsections.getD j dummySubSection).start_vaddr →
            (s.subsections.getD j dummySubSection).start_vaddr < U64 →
            (elfMapSec elf s).subsections.getD j dummySubSection =
              { s.subsections.getD j dummySubSection with
                start_file_offset := some
                  ((off + ((s.subsections.getD j dummySubSection).start_vaddr
                    - s.start_vaddr)) % U64) }) := by
  refine ⟨rfl, fun s => ⟨?_, ?_⟩⟩
  · intro hno
    unfold elfMapSec
    rw [lookupElf_none_iff.mpr hno]
  · intro hex
    cases hl : lookupElf elf s.name with
    | none =>
      obtain ⟨off0, hoff0⟩ := hex
      exact absurd hoff0 (lookupElf_none_iff.mp hl off0)
    | some off =>
      refine ⟨off, lookupElf_mem hl, ?_, ?_, ?_⟩
      · unfold elfMapSec
        rw [hl]
      · unfold elfMapSec
        rw [hl]
        simp
      · intro j hj hle hlt
        unfold elfMapSec
        rw [hl]
        simp only
        rw [getD_map_of_lt _ _ j hj dummySubSection dummySubSection]
        have hsub : u64sub (s.subsections.getD j dummySubSection).start_vaddr
            s.start_vaddr =
            (s.subsections.getD j dummySubSection).start_vaddr - s.start_vaddr := by
          unfold u64sub
          have h1 : U64 + (s.subsections.getD j dummySubSection).start_vaddr -
              s.start_vaddr =
              U64 + ((s.subsections.getD j dummySubSection).start_vaddr -
                s.start_vaddr) := by omega
          rw [h1, Nat.add_mod_left]
          exact Nat.mod_eq_of_lt (by omega)
        rw [hsub]
        unfold u64add
        rw [Nat.add_comm]

def c5Sub : SubSection :=
  { name := ".text.foo", start_vaddr := 0x400100, start_file_offset := none,
    size := 0x10, filename := "obj/a.o" }

def c5Sec : Section :=
  { name := ".text", start_vaddr := 0x400100, start_file_offset := none,
    size := 0x20, subsections := [c5Sub] }

def c5Elf : List (String × Nat) := [(".text", 0x1000)]

/-- C5 witness: the reconciler applied to the S1 scenario section. -/
theorem elf_reconciler_witness :
    ∃ off, (c5Sec.name, off) ∈ c5Elf ∧
      (elfMapSec c5Elf c5Sec).start_file_offset = some off ∧
      (elfMapSec c5Elf c5Sec).subsections.length = c5Sec.subsections.length ∧
      ∀ j, j < c5Sec.subsections.length →
        c5Sec.start_vaddr ≤ (c5Sec.subsections.getD j dummySubSection).start_vaddr →
        (c5Sec.subsections.getD j dummySubSection).start_vaddr < U64 →
        (elfMapSec c5Elf c5Sec).subsections.getD j dummySubSection =
          { c5Sec.subsections.getD j dummySubSection with
            start_file_offset := some
              ((off + ((c5Sec.subsections.getD j dummySubSection).start_vaddr
                - c5Sec.start_vaddr)) % U64) } :=
  ((elf_reconciler_offsets [c5Sec] c5Elf).2 c5Sec).2 ⟨0x1000, by decide⟩

/-! ### Lemmas about the matcher combinators -/

theorem downFrom_eq_some {β : Type} {f : Nat → Option β} {n : Nat} {b : β}
    (h : downFrom f n = some b) : ∃ i, i ≤ n ∧ f i = some b := by
  induction n with
  | zero => exact ⟨0, le_refl 0, h⟩
  | succ n ih =>
    unfold downFrom at h
    cases hf : f (n + 1) with
    | some x =>
      rw [hf] at h
      exact ⟨n + 1, le_refl _, by rw [hf]; exact h⟩
    | none =>
      rw [hf] at h
      have h' : downFrom f n = some b := h
      obtain ⟨i, hi, hfi⟩ := ih h'
      exact ⟨i, Nat.le_succ_of_le hi, hfi⟩

theorem downFrom1_eq_some {β : Type} {f : Nat → Option β} {n : Nat} {b : β}
    (h : downFrom1 f n = some b) : ∃ i, 1 ≤ i ∧ i ≤ n ∧ f i = some b := by
  induction n with
  | zero => cases h
  | succ n ih =>
    unfold downFrom1 at h
    cases hf : f (n + 1) with
    | some x =>
      rw [hf] at h
      exact ⟨n + 1, by omega, le_refl _, by rw [hf]; exact h⟩
    | none =>
      rw [hf] at h
      have h' : downFrom1 f n = some b := h
      obtain ⟨i, h1, hi, hfi⟩ := ih h'
      exact ⟨i, h1, Nat.le_succ_of_le hi, hfi⟩

theorem take_all_of_le_takeWhile {p : Char → Bool} {l : List Char} {i : Nat}
    (h : i ≤ (l.takeWhile p).length) : (l.take i).all p = true := by
  induction l generalizing i with
  | nil => simp
  | cons c t ih =>
    cases i with
    | zero => simp
    | succ n =>
      cases hp : p c with
      | false =>
        rw [List.takeWhile_cons, if_neg (by rw [hp]; exact Bool.false_ne_true)] at h
        simp at h
      | true =>
        rw [List.takeWhile_cons, if_pos hp] at h
        simp only [List.length_cons] at h
        simp only [List.take_succ_cons, List.all_cons, hp, Bool.true_and]
        exact ih (by omega)

theorem greedyStar_eq_some {β : Type} {p : Char → Bool} {l : List Char}
    {k : List Char → List Char → Option β} {b : β}
    (h : greedyStar p l k = some b) :
    ∃ pre rest, l = pre ++ rest ∧ pre.all p = true ∧ k pre rest = some b := by
  unfold greedyStar at h
  obtain ⟨i, hi, hf⟩ := downFrom_eq_some h
  exact ⟨l.take i, l.drop i, (List.take_append_drop i l).symm,
    take_all_of_le_takeWhile hi, hf⟩

theorem greedyPlus_eq_some {β : Type} {p : Char → Bool} {l : List Char}
    {k : List Char → List Char → Option β} {b : β}
    (h : greedyPlus p l k = some b) :
    ∃ pre rest, l = pre ++ rest ∧ pre ≠ [] ∧ pre.all p = true ∧
      k pre rest = some b := by
  unfold greedyPlus at h
  obtain ⟨i, h1, hi, hf⟩ := downFrom1_eq_some h
  refine ⟨l.take i, l.drop i, (List.take_append_drop i l).symm, ?_,
    take_all_of_le_takeWhile hi, hf⟩
  have hlen : 1 ≤ l.length := by
    have := List.Sublist.length_le (List.takeWhile_sublist p (l := l))
    omega
  intro hnil
  have := congrArg List.length hnil
  simp only [List.length_take, List.length_nil] at this
  omega

theorem litChar_eq_some {β : Type} {c : Char} {l : List Char}
    {k : List Char → Option β} {b : β} (h : litChar c l k = some b) :
    ∃ t, l = c :: t ∧ k t = some b := by
  cases l with
  | nil => simp [litChar] at h
  | cons c' t =>
    simp only [litChar] at h
    by_cases hc : c' = c
    · rw [if_pos hc] at h
      exact ⟨t, by rw [hc], h⟩
    · rw [if_neg hc] at h
      cases h

/-! ### Lemmas about the scanner -/

theorem scanGo_mem {α : Type} {tryAt : List Char → Option (α × Nat)}
    {text : List Char} :
    ∀ {fuel pos : Nat} {ls : Bool} {o : Nat} {a : α},
      (o, a) ∈ scanGo tryAt text fuel pos ls →
      pos ≤ o ∧ o < text.length ∧ ∃ len, tryAt (text.drop o) = some (a, len) := by
  intro fuel
  induction fuel with
  | zero => intro pos ls o a h; cases h
  | succ fuel ih =>
    intro pos ls o a h
    unfold scanGo at h
    by_cases hp : pos < text.length
    · rw [if_pos hp] at h
      cases ls with
      | false =>
        simp only [Bool.false_eq_true, if_false] at h
        obtain ⟨h1, h2, h3⟩ := ih h
        exact ⟨by omega, h2, h3⟩
      | true =>
        simp only [if_true] at h
        cases htry : tryAt (text.drop pos) with
        | some al =>
          rw [htry] at h
          obtain ⟨a', len⟩ := al
          rcases List.mem_cons.mp h with he | hm
          · cases he
            exact ⟨le_refl _, hp, len, htry⟩
          · obtain ⟨h1, h2, h3⟩ := ih hm
            exact ⟨by omega, h2, h3⟩
        | none =>
          rw [htry] at h
          obtain ⟨h1, h2, h3⟩ := ih h
          exact ⟨by omega, h2, h3⟩
    · rw [if_neg hp] at h
      cases h

theorem scanGo_pairwise {α : Type} {tryAt : List Char → Option (α × Nat)}
    {text : List Char} :
    ∀ (fuel pos : Nat) (ls : Bool),
      (scanGo tryAt text fuel pos ls).Pairwise (fun x y => x.1 < y.1) := by
  intro fuel
  induction fuel with
  | zero => intro pos ls; simp [scanGo]
  | succ fuel ih =>
    intro pos ls
    unfold scanGo
    by_cases hp : pos < text.length
    · rw [if_pos hp]
      cases ls with
      | false => simpa using ih (pos + 1) _
      | true =>
        cases htry : tryAt (text.drop pos) with
        | some al =>
          obtain ⟨a', len⟩ := al
          simp only
          refine List.Pairwise.cons ?_ (ih _ _)
          intro y hy
          have := (scanGo_mem hy).1
          simp only
          omega
        | none => simpa using ih (pos + 1) _
    · rw [if_neg hp]
      exact List.Pairwise.nil

theorem scanMatches_mem {α : Type} {tryAt : List Char → Option (α × Nat)}
    {text : List Char} {o : Nat} {a : α}
    (h : (o, a) ∈ scanMatches tryAt text) :
    o < text.length ∧ ∃ len, tryAt (text.drop o) = some (a, len) :=
  ⟨(scanGo_mem h).2.1, (scanGo_mem h).2.2⟩

theorem scanMatches_pairwise {α : Type} {tryAt : List Char → Option (α × Nat)}
    {text : List Char} :
    (scanMatches tryAt text).Pairwise (fun x y => x.1 < y.1) :=
  scanGo_pairwise _ _ _

/-! ### Shape facts about the GNU matchers -/

theorem gnuSecTryCore_shape {l : List Char} {cap : GnuSecCap} {rest : List Char}
    (h : gnuSecTryCore l = some (cap, rest)) :
    l.head? = some '.' ∧ (∃ nm, nm ≠ [] ∧ cap.name = '.' :: nm) ∧
      cap.vrom ≠ [] ∧ cap.vrom.all hexDigitChar = true ∧
      cap.size ≠ [] ∧ cap.size.all hexDigitChar = true := by
  unfold gnuSecTryCore at h
  obtain ⟨t0, hl, h⟩ := litChar_eq_some h
  obtain ⟨nm, r1, _, hnm, _, h⟩ := greedyPlus_eq_some h
  obtain ⟨w1, r2, _, hw1, _, h⟩ := greedyPlus_eq_some h
  obtain ⟨r3, _, h⟩ := litChar_eq_some h
  obtain ⟨r4, _, h⟩ := litChar_eq_some h
  obtain ⟨h1, r5, _, hh1, hh1x, h⟩ := greedyPlus_eq_some h
  obtain ⟨b1, r6, _, hb1, _, h⟩ := greedyPlus_eq_some h
  obtain ⟨r7, _, h⟩ := litChar_eq_some h
  obtain ⟨r8, _, h⟩ := litChar_eq_some h
  obtain ⟨h2, r9, _, hh2, hh2x, h⟩ := greedyPlus_eq_some h
  cases h
  exact ⟨by rw [hl]; rfl, ⟨nm, hnm, rfl⟩, hh1, hh1x, hh2, hh2x⟩

theorem gnuSubTryCore_shape {l : List Char} {cap : GnuSubCap} {rest : List Char}
    (h : gnuSubTryCore l = some (cap, rest)) :
    l.head? = some ' ' ∧ (∃ nm, nm ≠ [] ∧ cap.name = '.' :: nm) ∧
      cap.vrom ≠ [] ∧ cap.vrom.all hexDigitChar = true ∧
      cap.size ≠ [] ∧ cap.size.all hexDigitChar = true := by
  unfold gnuSubTryCore at h
  obtain ⟨t0, hl, h⟩ := litChar_eq_some h
  obtain ⟨t1, _, h⟩ := litChar_eq_some h
  obtain ⟨nm, r1, _, hnm, _, h⟩ := greedyPlus_eq_some h
  obtain ⟨w1, r2, _, hw1, _, h⟩ := greedyPlus_eq_some h
  obtain ⟨r3, _, h⟩ := litChar_eq_some h
  obtain ⟨r4, _, h⟩ := litChar_eq_some h
  obtain ⟨h1, r5, _, hh1, hh1x, h⟩ := greedyPlus_eq_some h
  obtain ⟨b1, r6, _, hb1, _, h⟩ := greedyPlus_eq_some h
  obtain ⟨r7, _, h⟩ := litChar_eq_some h
  obtain ⟨r8, _, h⟩ := litChar_eq_some h
  obtain ⟨h2, r9, _, hh2, hh2x, h⟩ := greedyPlus_eq_some h
  obtain ⟨b2, r10, _, hb2, _, h⟩ := greedyPlus_eq_some h
  obtain ⟨f, r11, _, hf, _, h⟩ := greedyPlus_eq_some h
  cases h
  exact ⟨by rw [hl]; rfl, ⟨nm, hnm, rfl⟩, hh1, hh1x, hh2, hh2x⟩

theorem tryAtOf_eq_some {α : Type} {core : List Char → Option (α × List Char)}
    {l : List Char} {a : α} {len : Nat}
    (h : tryAtOf core l = some (a, len)) :
    ∃ rest, core l = some (a, rest) := by
  unfold tryAtOf at h
  cases hc : core l with
  | none => rw [hc] at h; cases h
  | some cr =>
    obtain ⟨a', rest⟩ := cr
    rw [hc] at h
    simp only [Option.map_some'] at h
    cases h
    exact ⟨rest, rfl⟩

theorem tryAtOf_eq_some_of_core {α : Type} {core : List Char → Option (α × List Char)}
    {l : List Char} {a : α} {rest : List Char} (h : core l = some (a, rest)) :
    tryAtOf core l = some (a, l.length - rest.length) := by
  unfold tryAtOf
  rw [h]
  rfl

/-! ### Lemmas about `optMapM`, `modifyIdx`, the placement fold -/

theorem optMapM_length {α β : Type} {f : α → Option β} :
    ∀ {l : List α} {res : List β}, optMapM f l = some res → res.length = l.length := by
  intro l
  induction l with
  | nil => intro res h; cases h; rfl
  | cons a t ih =>
    intro res h
    unfold optMapM at h
    cases hf : f a with
    | none => rw [hf] at h; cases h
    | some b =>
      rw [hf] at h
      cases hr : optMapM f t with
      | none => rw [hr] at h; cases h
      | some r =>
        rw [hr] at h
        cases h
        simp [ih hr]

theorem optMapM_mem {α β : Type} {f : α → Option β} :
    ∀ {l : List α} {res : List β}, optMapM f l = some res →
      ∀ b ∈ res, ∃ a ∈ l, f a = some b := by
  intro l
  induction l with
  | nil =>
    intro res h b hb
    cases h
    cases hb
  | cons a t ih =>
    intro res h b hb
    unfold optMapM at h
    cases hf : f a with
    | none => rw [hf] at h; cases h
    | some b0 =>
      rw [hf] at h
      cases hr : optMapM f t with
      | none => rw [hr] at h; cases h
      | some r =>
        rw [hr] at h
        cases h
        rcases List.mem_cons.mp hb with he | hm
        · exact ⟨a, List.mem_cons_self a t, by rw [hf, he]⟩
        · obtain ⟨a', ha', hfa'⟩ := ih hr b hm
          exact ⟨a', List.mem_cons_of_mem a ha', hfa'⟩

theorem optMapM_getD {α β : Type} {f : α → Option β} :
    ∀ {l : List α} {res : List β}, optMapM f l = some res →
      ∀ i, i < l.length → ∀ (d : β) (d' : α),
        f (l.getD i d') = some (res.getD i d) := by
  intro l
  induction l with
  | nil => intro res h i hi; simp at hi
  | cons a t ih =>
    intro res h i hi d d'
    unfold optMapM at h
    cases hf : f a with
    | none => rw [hf] at h; cases h
    | some b0 =>
      rw [hf] at h
      cases hr : optMapM f t with
      | none => rw [hr] at h; cases h
      | some r =>
        rw [hr] at h
        cases h
        cases i with
        | zero => simpa using hf
        | succ n =>
          simp only [List.getD_cons_succ]
          exact ih hr n (by simpa using hi) d d'

theorem optMapM_total {α β : Type} {f : α → Option β} :
    ∀ {l : List α}, (∀ a ∈ l, ∃ b, f a = some b) → ∃ res, optMapM f l = some res := by
  intro l
  induction l with
  | nil => exact fun _ => ⟨[], rfl⟩
  | cons a t ih =>
    intro h
    obtain ⟨b, hb⟩ := h a (List.mem_cons_self a t)
    obtain ⟨r, hr⟩ := ih (fun x hx => h x (List.mem_cons_of_mem a hx))
    exact ⟨b :: r, by unfold optMapM; rw [hb, hr]; rfl⟩

theorem modifyIdx_length {α : Type} (f : α → α) :
    ∀ (l : List α) (j : Nat), (modifyIdx f l j).length = l.length := by
  intro l
  induction l with
  | nil => intro j; rfl
  | cons a t ih =>
    intro j
    cases j with
    | zero => rfl
    | succ n => simp [modifyIdx, ih n]

theorem getD_modifyIdx_ne {α : Type} {f : α → α} :
    ∀ {l : List α} {j i : Nat} (d : α), j ≠ i →
      (modifyIdx f l j).getD i d = l.getD i d := by
  intro l
  induction l with
  | nil => intro j i d _; rfl
  | cons a t ih =>
    intro j i d hji
    cases j with
    | zero =>
      cases i with
      | zero => exact absurd rfl hji
      | succ n => rfl
    | succ m =>
      cases i with
      | zero => rfl
      | succ n =>
        simp only [modifyIdx, List.getD_cons_succ]
        exact ih d (by omega)

theorem getD_modifyIdx_eq {α : Type} {f : α → α} :
    ∀ {l : List α} {i : Nat} (d : α), i < l.length →
      (modifyIdx f l i).getD i d = f (l.getD i d) := by
  intro l
  induction l with
  | nil => intro i d hi; simp at hi
  | cons a t ih =>
    intro i d hi
    cases i with
    | zero => rfl
    | succ n =>
      simp only [modifyIdx, List.getD_cons_succ]
      exact ih d (by simpa using hi)

/-! ### The placement fold and the greatest-below characterization -/

theorem gnuPlace_length (offs : List Nat) (secs : List Section)
    (os : Nat × SubSection) : (gnuPlace offs secs os).length = secs.length := by
  unfold gnuPlace
  by_cases h : 0 < gnuAssignIndex offs os.1
  · rw [if_pos h]
    exact modifyIdx_length _ _ _
  · rw [if_neg h]

theorem foldl_gnuPlace_getD (offs : List Nat) :
    ∀ (subs : List (Nat × SubSection)) (secs : List Section) (i : Nat),
      i < secs.length →
      (subs.foldl (gnuPlace offs) secs).getD i dummySection =
        { secs.getD i dummySection with
          subsections := (secs.getD i dummySection).subsections ++
            ((subs.filter (fun os => decide (0 < gnuAssignIndex offs os.1 ∧
               gnuAssignIndex offs os.1 - 1 = i))).map Prod.snd) } := by
  intro subs
  induction subs with
  | nil =>
    intro secs i hi
    simp only [List.foldl_nil, List.filter_nil, List.map_nil, List.append_nil]
  | cons os subs ih =>
    intro secs i hi
    simp only [List.foldl_cons]
    have hlen : i < (gnuPlace offs secs os).length := by
      rw [gnuPlace_length]
      exact hi
    rw [ih (gnuPlace offs secs os) i hlen]
    by_cases hP : 0 < gnuAssignIndex offs os.1 ∧ gnuAssignIndex offs os.1 - 1 = i
    · have hplace : (gnuPlace offs secs os).getD i dummySection =
          pushSub os.2 (secs.getD i dummySection) := by
        unfold gnuPlace
        rw [if_pos hP.1, ← hP.2]
        exact getD_modifyIdx_eq _ (by omega)
      rw [hplace]
      rw [List.filter_cons_of_pos (by simpa using hP)]
      simp [pushSub]
    · have hplace : (gnuPlace offs secs os).getD i dummySection =
          secs.getD i dummySection := by
        unfold gnuPlace
        by_cases h0 : 0 < gnuAssignIndex offs os.1
        · rw [if_pos h0]
          exact getD_modifyIdx_ne _ (fun he => hP ⟨h0, he⟩)
        · rw [if_neg h0]
      rw [hplace]
      rw [List.filter_cons_of_neg (by simpa using hP)]

theorem findFirstAbove_some {o : Nat} :
    ∀ {l : List Nat} {m : Nat}, findFirstAbove o l = some m →
      m < l.length ∧ o < l.getD m 0 ∧ ∀ j, j < m → l.getD j 0 ≤ o := by
  intro l
  induction l with
  | nil => intro m h; cases h
  | cons s t ih =>
    intro m h
    unfold findFirstAbove at h
    by_cases hs : o < s
    · rw [if_pos hs] at h
      cases h
      exact ⟨by simp, hs, by omega⟩
    · rw [if_neg hs] at h
      cases hr : findFirstAbove o t with
      | none => rw [hr] at h; cases h
      | some m' =>
        rw [hr] at h
        simp only [Option.map_some'] at h
        cases h
        obtain ⟨h1, h2, h3⟩ := ih hr
        refine ⟨by simpa using h1, by simpa using h2, ?_⟩
        intro j hj
        cases j with
        | zero => simpa using by omega
        | succ j' =>
          simp only [List.getD_cons_succ]
          exact h3 j' (by omega)

theorem findFirstAbove_none {o : Nat} :
    ∀ {l : List Nat}, findFirstAbove o l = none →
      ∀ j, j < l.length → l.getD j 0 ≤ o := by
  intro l
  induction l with
  | nil => intro _ j hj; simp at hj
  | cons s t ih =>
    intro h j hj
    unfold findFirstAbove at h
    by_cases hs : o < s
    · rw [if_pos hs] at h
      cases h
    · rw [if_neg hs] at h
      cases hr : findFirstAbove o t with
      | some m' => rw [hr] at h; cases h
      | none =>
        cases j with
        | zero => simpa using by omega
        | succ j' =>
          simp only [List.getD_cons_succ]
          exact ih hr j' (by simpa using hj)

/-- The attribution rule exactly as the claim words it: position `i`
holds the section whose match offset is the greatest offset strictly
below the subsection's match offset `o`. -/
def greatestBelowPred (offs : List Nat) (i o : Nat) : Prop :=
  i < offs.length ∧ offs.getD i 0 < o ∧
    ∀ j, j < offs.length → offs.getD j 0 < o → offs.getD j 0 ≤ offs.getD i 0

instance (offs : List Nat) (i o : Nat) : Decidable (greatestBelowPred offs i o) := by
  unfold greatestBelowPred
  exact instDecidableAnd

/-- Under sorted, collision-free offsets the code's `find_map` index
computation implements exactly the claim's greatest-strictly-below
rule. -/
theorem gnuAssign_iff_greatestBelow {offs : List Nat} {o i : Nat}
    (hsorted : ∀ a b, a < b → b < offs.length → offs.getD a 0 < offs.getD b 0)
    (hne : ∀ j, j < offs.length → offs.getD j 0 ≠ o) :
    (0 < gnuAssignIndex offs o ∧ gnuAssignIndex offs o - 1 = i) ↔
      greatestBelowPred offs i o := by
  unfold gnuAssignIndex greatestBelowPred
  cases hf : findFirstAbove o offs with
  | some m =>
    obtain ⟨hmlen, hmo, hmlt⟩ := findFirstAbove_some hf
    simp only [Option.getD_some]
    have hstrict : ∀ j, j < m → offs.getD j 0 < o := by
      intro j hj
      have := hmlt j hj
      have := hne j (by omega)
      omega
    constructor
    · rintro ⟨hm0, rfl⟩
      refine ⟨by omega, hstrict (m - 1) (by omega), ?_⟩
      intro j hj hjo
      by_cases hjm : j < m
      · rcases Nat.lt_or_ge j (m - 1) with hlt | hge
        · exact le_of_lt (hsorted j (m - 1) hlt (by omega))
        · have : j = m - 1 := by omega
          rw [this]
      · exfalso
        have : offs.getD m 0 ≤ offs.getD j 0 := by
          rcases Nat.lt_or_ge m j with hmj | hmj
          · exact le_of_lt (hsorted m j hmj hj)
          · have : j = m := by omega
            rw [this]
        omega
    · rintro ⟨hilen, hio, hmax⟩
      have him : i < m := by
        by_contra hge
        have : o < offs.getD i 0 := by
          rcases Nat.lt_or_ge m i with hmi | hmi
          · have := hsorted m i hmi hilen
            omega
          · have : i = m := by omega
            rw [this]
            exact hmo
        omega
      constructor
      · omega
      · by_contra hne'
        have hi1 : i < m - 1 := by omega
        have h1 : offs.getD (m - 1) 0 < o := hstrict (m - 1) (by omega)
        have h2 : offs.getD (m - 1) 0 ≤ offs.getD i 0 := hmax (m - 1) (by omega) h1
        have h3 : offs.getD i 0 < offs.getD (m - 1) 0 :=
          hsorted i (m - 1) hi1 (by omega)
        omega
  | none =>
    have hall : ∀ j, j < offs.length → offs.getD j 0 < o := by
      intro j hj
      have := findFirstAbove_none hf j hj
      have := hne j hj
      omega
    simp only [Option.getD_none]
    constructor
    · rintro ⟨h0, rfl⟩
      refine ⟨by omega, hall _ (by omega), ?_⟩
      intro j hj hjo
      rcases Nat.lt_or_ge j (offs.length - 1) with hlt | hge
      · exact le_of_lt (hsorted j (offs.length - 1) hlt (by omega))
      · have : j = offs.length - 1 := by omega
        rw [this]
    · rintro ⟨hilen, hio, hmax⟩
      constructor
      · omega
      · by_contra hne'
        have hi1 : i < offs.length - 1 := by omega
        have h1 : offs.getD (offs.length - 1) 0 < o := hall _ (by omega)
        have h2 : offs.getD (offs.length - 1) 0 ≤ offs.getD i 0 :=
          hmax _ (by omega) h1
        have h3 : offs.getD i 0 < offs.getD (offs.length - 1) 0 :=
          hsorted i _ hi1 (by omega)
        omega

/-! ### Assembly of the GNU attribution claim -/

theorem pairwise_lt_getD {l : List Nat} (h : l.Pairwise (· < ·)) :
    ∀ a b, a < b → b < l.length → l.getD a 0 < l.getD b 0 := by
  intro a b hab hb
  have ha : a < l.length := by omega
  rw [List.getD_eq_getElem l 0 ha, List.getD_eq_getElem l 0 hb]
  exact List.pairwise_iff_getElem.mp h a b ha hb hab

theorem gnu_sec_offset_head {text : List Char} {o : Nat} {cap : GnuSecCap}
    (h : (o, cap) ∈ gnuSectionMatches text) :
    (text.drop o).head? = some '.' := by
  obtain ⟨_, len, htry⟩ := scanMatches_mem h
  obtain ⟨rest, hcore⟩ := tryAtOf_eq_some htry
  exact (gnuSecTryCore_shape hcore).1

theorem gnu_sub_offset_head {text : List Char} {o : Nat} {cap : GnuSubCap}
    (h : (o, cap) ∈ gnuSubMatches text) :
    (text.drop o).head? = some ' ' := by
  obtain ⟨_, len, htry⟩ := scanMatches_mem h
  obtain ⟨rest, hcore⟩ := tryAtOf_eq_some htry
  exact (gnuSubTryCore_shape hcore).1

theorem foldl_gnuPlace_length (offs : List Nat) :
    ∀ (subs : List (Nat × SubSection)) (secs : List Section),
      (subs.foldl (gnuPlace offs) secs).length = secs.length := by
  intro subs
  induction subs with
  | nil => intro secs; rfl
  | cons os subs ih =>
    intro secs
    simp only [List.foldl_cons]
    rw [ih, gnuPlace_length]

theorem capToSection_subsections {c : GnuSecCap} {s : Section}
    (h : capToSection c = some s) : s.subsections = [] := by
  unfold capToSection at h
  cases h1 : fromStrRadix16 c.vrom with
  | none => rw [h1] at h; cases h
  | some v =>
    rw [h1] at h
    cases h2 : fromStrRadix16 c.size with
    | none => rw [h2] at h; cases h
    | some sz =>
      rw [h2] at h
      cases h
      rfl

theorem extract_gnu_eq {text : List Char} {secs : List Section}
    (h : extract_gnu_mapfile text = some secs) :
    ∃ sections0 subs,
      optMapM (fun pc => capToSection pc.2) (gnuSectionMatches text) =
        some sections0 ∧
      optMapM (fun pc => (capToSubSection pc.2).map (fun s => (pc.1, s)))
        (gnuSubMatches text) = some subs ∧
      secs = subs.foldl (gnuPlace ((gnuSectionMatches text).map Prod.fst))
        sections0 := by
  have h' : (optMapM (fun pc => capToSection pc.2) (gnuSectionMatches text)).bind
      (fun sections =>
        (optMapM (fun pc => (capToSubSection pc.2).map (fun s => (pc.1, s)))
            (gnuSubMatches text)).bind
          (fun subs =>
            some (subs.foldl
              (gnuPlace ((gnuSectionMatches text).map Prod.fst)) sections))) =
      some secs := h
  cases h1 : optMapM (fun pc => capToSection pc.2) (gnuSectionMatches text) with
  | none => rw [h1] at h'; cases h'
  | some sections0 =>
    rw [h1] at h'
    simp only [Option.some_bind] at h'
    cases h2 : optMapM (fun pc => (capToSubSection pc.2).map (fun s => (pc.1, s)))
        (gnuSubMatches text) with
    | none => rw [h2] at h'; cases h'
    | some subs =>
      rw [h2] at h'
      simp only [Option.some_bind, Option.some_inj] at h'
      exact ⟨sections0, subs, rfl, rfl, h'.symm⟩

theorem subs_elem_is_submatch {text : List Char} {subs : List (Nat × SubSection)}
    (h : optMapM (fun pc => (capToSubSection pc.2).map (fun s => (pc.1, s)))
      (gnuSubMatches text) = some subs) :
    ∀ os ∈ subs, ∃ cap, (os.1, cap) ∈ gnuSubMatches text ∧
      capToSubSection cap = some os.2 := by
  intro os hos
  obtain ⟨pc, hpc, hf⟩ := optMapM_mem h os hos
  cases hc : capToSubSection pc.2 with
  | none => rw [hc] at hf; cases hf
  | some s =>
    rw [hc] at hf
    simp only [Option.map_some'] at hf
    obtain ⟨o, ss⟩ := os
    cases hf
    exact ⟨pc.2, by rwa [show (pc.1, pc.2) = pc from rfl], hc⟩

/-- C4: in the GNU parser, each subsection match is attributed to the
section of the greatest match offset strictly below its own match
offset, and subsection matches preceding every section match (in
particular those before the first section) appear in no section. -/
theorem gnu_attribution_greatest_below (text : List Char) (secs : List Section)
    (h : extract_gnu_mapfile text = some secs) :
    ∃ subs, optMapM (fun pc => (capToSubSection pc.2).map (fun s => (pc.1, s)))
        (gnuSubMatches text) = some subs ∧
      secs.length = (gnuSectionMatches text).length ∧
      ∀ i, i < secs.length →
        (secs.getD i dummySection).subsections =
          (subs.filter (fun os =>
            decide (greatestBelowPred ((gnuSectionMatches text).map Prod.fst)
              i os.1))).map Prod.snd := by
  obtain ⟨sections0, subs, h1, h2, rfl⟩ := extract_gnu_eq h
  have hlen0 : sections0.length = (gnuSectionMatches text).length := optMapM_length h1
  have hlen : (subs.foldl (gnuPlace ((gnuSectionMatches text).map Prod.fst))
      sections0).length = sections0.length := foldl_gnuPlace_length _ _ _
  refine ⟨subs, h2, by rw [hlen, hlen0], ?_⟩
  intro i hi
  have hi0 : i < sections0.length := by omega
  rw [foldl_gnuPlace_getD _ subs sections0 i hi0]
  have hempty : (sections0.getD i dummySection).subsections = [] := by
    have := optMapM_getD h1 i (by omega) dummySection
      ((0, dummySecCap) : Nat × GnuSecCap)
    exact capToSection_subsections this
  simp only [hempty, List.nil_append]
  apply congrArg
  refine List.filter_congr (fun os hos => ?_)
  apply decide_eq_decide.mpr
  have hsorted : ∀ a b, a < b → b < ((gnuSectionMatches text).map Prod.fst).length →
      ((gnuSectionMatches text).map Prod.fst).getD a 0 <
        ((gnuSectionMatches text).map Prod.fst).getD b 0 :=
    pairwise_lt_getD (List.Pairwise.map Prod.fst (fun a b hab => hab)
      scanMatches_pairwise)
  have hne : ∀ j, j < ((gnuSectionMatches text).map Prod.fst).length →
      ((gnuSectionMatches text).map Prod.fst).getD j 0 ≠ os.1 := by
    intro j hj heq
    have hjlen : j < (gnuSectionMatches text).length := by simpa using hj
    have hmem : ((gnuSectionMatches text).map Prod.fst).getD j 0 ∈
        (gnuSectionMatches text).map Prod.fst := by
      rw [List.getD_eq_getElem _ 0 hj]
      exact List.getElem_mem hj
    rw [heq] at hmem
    obtain ⟨pc, hpc, hfst⟩ := List.mem_map.mp hmem
    obtain ⟨cap', hcap', _⟩ := subs_elem_is_submatch h2 os hos
    have hsec : (os.1, pc.2) ∈ gnuSectionMatches text := by
      rw [← hfst]
      exact hpc
    have hd1 := gnu_sec_offset_head hsec
    have hd2 := gnu_sub_offset_head hcap'
    rw [hd1] at hd2
    cases hd2
  exact gnuAssign_iff_greatestBelow hsorted hne

def c4Text : List Char :=
  (" .pre 0x0 0x1 f.o\n.a 0x10 0x20\n .s1 0x11 0x1 g.o\n.b 0x30 0x40\n .s2 0x31 0x2 h.o\n").data

def c4SecA : Section :=
  { name := ".a", start_vaddr := 0x10, start_file_offset := none, size := 0x20,
    subsections := [{ name := ".s1", start_vaddr := 0x11, start_file_offset := none,
                      size := 1, filename := "g.o" }] }

def c4SecB : Section :=
  { name := ".b", start_vaddr := 0x30, start_file_offset := none, size := 0x40,
    subsections := [{ name := ".s2", start_vaddr := 0x31, start_file_offset := none,
                      size := 2, filename := "h.o" }] }

/-- C4 witness: the attribution rule at a concrete mapfile with a
dropped pre-section subsection and two attributed subsections. -/
theorem gnu_attribution_witness :
    ∃ subs, optMapM (fun pc => (capToSubSection pc.2).map (fun s => (pc.1, s)))
        (gnuSubMatches c4Text) = some subs ∧
      [c4SecA, c4SecB].length = (gnuSectionMatches c4Text).length ∧
      ∀ i, i < [c4SecA, c4SecB].length →
        (([c4SecA, c4SecB] : List Section).getD i dummySection).subsections =
          (subs.filter (fun os =>
            decide (greatestBelowPred ((gnuSectionMatches c4Text).map Prod.fst)
              i os.1))).map Prod.snd :=
  gnu_attribution_greatest_below c4Text [c4SecA, c4SecB] (by decide)

/-! ### The GNU name invariant (C10) -/

theorem capToSection_name {c : GnuSecCap} {s : Section}
    (h : capToSection c = some s) : s.name = String.mk c.name := by
  unfold capToSection at h
  cases h1 : fromStrRadix16 c.vrom with
  | none => rw [h1] at h; cases h
  | some v =>
    rw [h1] at h
    cases h2 : fromStrRadix16 c.size with
    | none => rw [h2] at h; cases h
    | some sz =>
      rw [h2] at h
      cases h
      rfl

theorem capToSubSection_name {c : GnuSubCap} {ss : SubSection}
    (h : capToSubSection c = some ss) : ss.name = String.mk c.name := by
  unfold capToSubSection at h
  cases h1 : fromStrRadix16 c.vrom with
  | none => rw [h1] at h; cases h
  | some v =>
    rw [h1] at h
    cases h2 : fromStrRadix16 c.size with
    | none => rw [h2] at h; cases h
    | some sz =>
      rw [h2] at h
      cases h
      rfl

theorem gnu_sec_cap_name {text : List Char} {o : Nat} {cap : GnuSecCap}
    (h : (o, cap) ∈ gnuSectionMatches text) :
    ∃ nm, nm ≠ [] ∧ cap.name = '.' :: nm := by
  obtain ⟨_, len, htry⟩ := scanMatches_mem h
  obtain ⟨rest, hcore⟩ := tryAtOf_eq_some htry
  exact (gnuSecTryCore_shape hcore).2.1

theorem gnu_sub_cap_name {text : List Char} {o : Nat} {cap : GnuSubCap}
    (h : (o, cap) ∈ gnuSubMatches text) :
    ∃ nm, nm ≠ [] ∧ cap.name = '.' :: nm := by
  obtain ⟨_, len, htry⟩ := scanMatches_mem h
  obtain ⟨rest, hcore⟩ := tryAtOf_eq_some htry
  exact (gnuSubTryCore_shape hcore).2.1

/-- C10: every section and every subsection produced by the GNU parser
has a name starting with `'.'` — rows of the right numeric shape whose
name field does not start with a dot never match either regex, so they
contribute nothing. -/
theorem gnu_names_start_with_dot (text : List Char) (secs : List Section)
    (h : extract_gnu_mapfile text = some secs) :
    ∀ s ∈ secs, s.name.data.head? = some '.' ∧
      ∀ ss ∈ s.subsections, ss.name.data.head? = some '.' := by
  obtain ⟨sections0, subs, h1, h2, rfl⟩ := extract_gnu_eq h
  intro s hs
  obtain ⟨i, hilen, his⟩ := List.mem_iff_getElem.mp hs
  have hlenf : (subs.foldl (gnuPlace ((gnuSectionMatches text).map Prod.fst))
      sections0).length = sections0.length := foldl_gnuPlace_length _ _ _
  have hi0 : i < sections0.length := by omega
  have hgd : (subs.foldl (gnuPlace ((gnuSectionMatches text).map Prod.fst))
      sections0).getD i dummySection = s := by
    rw [List.getD_eq_getElem _ _ (by omega)]
    exact his
  rw [foldl_gnuPlace_getD _ subs sections0 i hi0] at hgd
  have hseccap := optMapM_getD h1 i
    (by rwa [optMapM_length h1] at hi0) dummySection ((0, dummySecCap))
  have hmem : (gnuSectionMatches text).getD i (0, dummySecCap) ∈
      gnuSectionMatches text := by
    have hl : i < (gnuSectionMatches text).length := by
      rwa [optMapM_length h1] at hi0
    rw [List.getD_eq_getElem _ _ hl]
    exact List.getElem_mem hl
  obtain ⟨o', cap', hpc⟩ : ∃ o' cap',
      (gnuSectionMatches text).getD i (0, dummySecCap) = (o', cap') :=
    ⟨_, _, rfl⟩
  rw [hpc] at hseccap hmem
  constructor
  · have hname : s.name = (sections0.getD i dummySection).name := by
      rw [← hgd]
    rw [hname, capToSection_name hseccap]
    obtain ⟨nm, _, hnm⟩ := gnu_sec_cap_name hmem
    rw [hnm]
    rfl
  · intro ss hss
    have hsubs : s.subsections = (sections0.getD i dummySection).subsections ++
        ((subs.filter (fun os =>
          decide (0 < gnuAssignIndex ((gnuSectionMatches text).map Prod.fst) os.1 ∧
            gnuAssignIndex ((gnuSectionMatches text).map Prod.fst) os.1 - 1 = i))).map
          Prod.snd) := by
      rw [← hgd]
    rw [hsubs, capToSection_subsections hseccap, List.nil_append] at hss
    obtain ⟨os, hosf, hoss⟩ := List.mem_map.mp hss
    have hos : os ∈ subs := List.mem_of_mem_filter hosf
    obtain ⟨cap, hcapmem, hcap⟩ := subs_elem_is_submatch h2 os hos
    rw [← hoss, capToSubSection_name hcap]
    obtain ⟨nm, _, hnm⟩ := gnu_sub_cap_name hcapmem
    rw [hnm]
    rfl

def c10Text : List Char := (".t 0x5 0x2\n .s 0x6 0x1 a.o\n").data

def c10Sub : SubSection :=
  { name := ".s", start_vaddr := 6, start_file_offset := none, size := 1,
    filename := "a.o" }

def c10Sec : Section :=
  { name := ".t", start_vaddr := 5, start_file_offset := none, size := 2,
    subsections := [c10Sub] }

/-- C10 witness: the dot-name invariant at a concrete parse, fully
instantiated at the parsed section and its subsection. -/
theorem gnu_names_witness :
    c10Sec.name.data.head? = some '.' ∧ c10Sub.name.data.head? = some '.' :=
  ⟨(gnu_names_start_with_dot c10Text [c10Sec] (by decide) c10Sec
      (by decide)).1,
   (gnu_names_start_with_dot c10Text [c10Sec] (by decide) c10Sec
      (by decide)).2 c10Sub (by decide)⟩

/-! ### Totality of the GNU and LLVM parsers (C3) -/

theorem fromStrRadix16_total {l : List Char} (h1 : l ≠ [])
    (h2 : l.all hexDigitChar = true) (h3 : hexVal l < U64) :
    fromStrRadix16 l = some (hexVal l) := by
  unfold fromStrRadix16
  rw [if_pos ⟨h1, h2, h3⟩]

theorem capToSection_total {c : GnuSecCap} (h1 : c.vrom ≠ [])
    (h2 : c.vrom.all hexDigitChar = true) (h3 : hexVal c.vrom < U64)
    (h4 : c.size ≠ []) (h5 : c.size.all hexDigitChar = true)
    (h6 : hexVal c.size < U64) : ∃ s, capToSection c = some s := by
  unfold capToSection
  rw [fromStrRadix16_total h1 h2 h3, fromStrRadix16_total h4 h5 h6]
  exact ⟨_, rfl⟩

theorem capToSubSection_total {c : GnuSubCap} (h1 : c.vrom ≠ [])
    (h2 : c.vrom.all hexDigitChar = true) (h3 : hexVal c.vrom < U64)
    (h4 : c.size ≠ []) (h5 : c.size.all hexDigitChar = true)
    (h6 : hexVal c.size < U64) : ∃ s, capToSubSection c = some s := by
  unfold capToSubSection
  rw [fromStrRadix16_total h1 h2 h3, fromStrRadix16_total h4 h5 h6]
  exact ⟨_, rfl⟩

/-- The side condition under which the GNU parser cannot panic: every
numeral captured by a section or subsection match fits in u64. -/
def GnuNumOk (text : List Char) : Prop :=
  (∀ pc ∈ gnuSectionMatches text,
    hexVal (pc.2 : GnuSecCap).vrom < U64 ∧ hexVal (pc.2 : GnuSecCap).size < U64) ∧
  (∀ pc ∈ gnuSubMatches text,
    hexVal (pc.2 : GnuSubCap).vrom < U64 ∧ hexVal (pc.2 : GnuSubCap).size < U64)

instance (text : List Char) : Decidable (GnuNumOk text) := by
  unfold GnuNumOk
  exact instDecidableAnd

theorem extract_gnu_total {text : List Char} (h : GnuNumOk text) :
    ∃ r, extract_gnu_mapfile text = some r := by
  obtain ⟨hsec, hsub⟩ := h
  obtain ⟨sections0, h1⟩ :=
    optMapM_total (f := fun pc => capToSection pc.2)
      (l := gnuSectionMatches text) (by
        intro pc hpc
        obtain ⟨_, len, htry⟩ := scanMatches_mem (o := pc.1) (a := pc.2) (by
          rwa [show (pc.1, pc.2) = pc from rfl])
        obtain ⟨rest, hcore⟩ := tryAtOf_eq_some htry
        obtain ⟨_, _, hv1, hv2, hs1, hs2⟩ := gnuSecTryCore_shape hcore
        exact capToSection_total hv1 hv2 (hsec pc hpc).1 hs1 hs2 (hsec pc hpc).2)
  obtain ⟨subs, h2⟩ :=
    optMapM_total (f := fun pc => (capToSubSection pc.2).map (fun s => (pc.1, s)))
      (l := gnuSubMatches text) (by
        intro pc hpc
        obtain ⟨_, len, htry⟩ := scanMatches_mem (o := pc.1) (a := pc.2) (by
          rwa [show (pc.1, pc.2) = pc from rfl])
        obtain ⟨rest, hcore⟩ := tryAtOf_eq_some htry
        obtain ⟨_, _, hv1, hv2, hs1, hs2⟩ := gnuSubTryCore_shape hcore
        obtain ⟨ss, hss⟩ :=
          capToSubSection_total hv1 hv2 (hsub pc hpc).1 hs1 hs2 (hsub pc hpc).2
        refine ⟨(pc.1, ss), ?_⟩
        show (capToSubSection pc.2).map (fun s => (pc.1, s)) = some (pc.1, ss)
        rw [hss]
        rfl)
  refine ⟨subs.foldl (gnuPlace ((gnuSectionMatches text).map Prod.fst))
    sections0, ?_⟩
  show (optMapM (fun pc => capToSection pc.2) (gnuSectionMatches text)).bind
      (fun sections =>
        (optMapM (fun pc => (capToSubSection pc.2).map (fun s => (pc.1, s)))
            (gnuSubMatches text)).bind
          (fun subs' =>
            some (subs'.foldl
              (gnuPlace ((gnuSectionMatches text).map Prod.fst)) sections))) =
      some (subs.foldl (gnuPlace ((gnuSectionMatches text).map Prod.fst))
        sections0)
  rw [h1]
  simp only [Option.some_bind]
  rw [h2]
  simp only [Option.some_bind]

theorem llvmLineMatch_shape {l : List Char} {cap : LlvmCap}
    (h : llvmLineMatch l = some cap) :
    cap.vma ≠ [] ∧ cap.vma.all hexDigitChar = true ∧
      cap.size ≠ [] ∧ cap.size.all hexDigitChar = true := by
  unfold llvmLineMatch at h
  obtain ⟨w0, r1, _, _, h⟩ := greedyStar_eq_some h
  obtain ⟨vma, r2, _, hvne, hvall, h⟩ := greedyPlus_eq_some h
  obtain ⟨w1, r3, _, _, h⟩ := greedyStar_eq_some h
  obtain ⟨lma, r4, _, _, _, h⟩ := greedyPlus_eq_some h
  obtain ⟨w2, r5, _, _, h⟩ := greedyStar_eq_some h
  obtain ⟨size, r6, _, hsne, hsall, h⟩ := greedyPlus_eq_some h
  obtain ⟨w3, r7, _, _, h⟩ := greedyStar_eq_some h
  obtain ⟨align, r8, _, _, _, h⟩ := greedyPlus_eq_some h
  obtain ⟨spaces, r9, _, _, _, h⟩ := greedyPlus_eq_some h
  split at h
  · cases h
  · cases h
    exact ⟨hvne, hvall, hsne, hsall⟩

/-- The side condition under which one LLVM mapfile line cannot make
`capture_to_entry_type` panic: its numerals fit in u64 and, when the
row is classified as a subsection, its name field contains `":("`. -/
def llvmLineOkB (gap : Nat) (l : List Char) : Bool :=
  match llvmLineMatch l with
  | none => true
  | some cap =>
    decide (hexVal cap.vma < U64) && decide (hexVal cap.size < U64) &&
      (if cap.spaces.length = 1 + 3 + gap then
        (findSubstrIdx cap.name.dropLast colonParenLit).isSome
      else true)

theorem c2e_total {cap : LlvmCap} {gap : Nat}
    (h1 : cap.vma ≠ []) (h2 : cap.vma.all hexDigitChar = true)
    (h3 : hexVal cap.vma < U64)
    (h4 : cap.size ≠ []) (h5 : cap.size.all hexDigitChar = true)
    (h6 : hexVal cap.size < U64)
    (h7 : cap.spaces.length = 1 + 3 + gap →
      (findSubstrIdx cap.name.dropLast colonParenLit).isSome = true) :
    ∃ v, capture_to_entry_type cap gap = some v := by
  unfold capture_to_entry_type
  rw [fromStrRadix16_total h1 h2 h3, fromStrRadix16_total h4 h5 h6]
  simp only [bind, Option.bind]
  by_cases hsp : cap.spaces.length = 1
  · rw [if_pos hsp]
    exact ⟨_, rfl⟩
  · rw [if_neg hsp]
    by_cases hsp2 : cap.spaces.length = 1 + 3 + gap
    · rw [if_pos hsp2]
      obtain ⟨idx, hidx⟩ := Option.isSome_iff_exists.mp (h7 hsp2)
      rw [hidx]
      exact ⟨_, rfl⟩
    · rw [if_neg hsp2]
      exact ⟨_, rfl⟩

theorem c2e_total_of_lineOk {gap : Nat} {l : List Char} {cap : LlvmCap}
    (hok : llvmLineOkB gap l = true) (hm : llvmLineMatch l = some cap) :
    ∃ v, capture_to_entry_type cap gap = some v := by
  obtain ⟨h1, h2, h4, h5⟩ := llvmLineMatch_shape hm
  unfold llvmLineOkB at hok
  rw [hm] at hok
  simp only [Bool.and_eq_true, decide_eq_true_eq] at hok
  refine c2e_total h1 h2 hok.1.1 h4 h5 hok.1.2 ?_
  intro hsp2
  have := hok.2
  rwa [if_pos hsp2] at this

theorem llvmLoop_total {gap : Nat} :
    ∀ (ls : List (List Char)), (∀ l ∈ ls, llvmLineOkB gap l = true) →
      ∀ cur acc, ∃ r, llvmLoop gap ls cur acc = some r := by
  intro ls
  induction ls with
  | nil => exact fun _ cur acc => ⟨acc ++ [cur], rfl⟩
  | cons l ls ih =>
    intro h cur acc
    have hl := h l (List.mem_cons_self l ls)
    have hrest := fun x hx => h x (List.mem_cons_of_mem l hx)
    cases hm : llvmLineMatch l with
    | none =>
      obtain ⟨r, hr⟩ := ih hrest cur acc
      exact ⟨r, by simp only [llvmLoop, hm]; exact hr⟩
    | some cap =>
      obtain ⟨v, hv⟩ := c2e_total_of_lineOk hl hm
      cases v with
      | none =>
        obtain ⟨r, hr⟩ := ih hrest cur acc
        exact ⟨r, by simp only [llvmLoop, hm, hv]; exact hr⟩
      | some e =>
        cases e with
        | sec s =>
          obtain ⟨r, hr⟩ := ih hrest s (acc ++ [cur])
          exact ⟨r, by simp only [llvmLoop, hm, hv]; exact hr⟩
        | sub ss =>
          obtain ⟨r, hr⟩ := ih hrest (pushSub ss cur) acc
          exact ⟨r, by simp only [llvmLoop, hm, hv]; exact hr⟩

theorem extract_llvm_total {text : List Char} {gap : Nat}
    (h : ∀ l ∈ (rustLines text).drop 1, llvmLineOkB gap l = true) :
    ∃ r, extract_llvm_mapfile text gap = some r := by
  cases hls : (rustLines text).drop 1 with
  | nil => exact ⟨[], by simp only [extract_llvm_mapfile, hls]⟩
  | cons l ls =>
    rw [hls] at h
    have hl := h l (List.mem_cons_self l ls)
    cases hm : llvmLineMatch l with
    | none => exact ⟨[], by simp only [extract_llvm_mapfile, hls, hm]⟩
    | some cap =>
      obtain ⟨v, hv⟩ := c2e_total_of_lineOk hl hm
      cases v with
      | none =>
        exact ⟨[], by simp only [extract_llvm_mapfile, hls, hm, hv]⟩
      | some e =>
        cases e with
        | sec s =>
          obtain ⟨r, hr⟩ := llvmLoop_total ls
            (fun x hx => h x (List.mem_cons_of_mem l hx)) s []
          exact ⟨r, by simp only [extract_llvm_mapfile, hls, hm, hv]; exact hr⟩
        | sub ss =>
          exact ⟨[], by simp only [extract_llvm_mapfile, hls, hm, hv]⟩

/-- C3 amended: the GNU and LLVM parsers return successfully on every
input whose matched rows satisfy the stated side conditions — all
matched numerals fit in u64 and (LLVM) every subsection-classified
row's name field contains `":("`; lines that do not match are skipped.
Without the side conditions the parsers can panic (see the
counterexample). -/
theorem parsers_total_amended :
    (∀ text : List Char, GnuNumOk text → ∃ r, extract_gnu_mapfile text = some r) ∧
    (∀ (text : List Char) (gap : Nat),
      (∀ l ∈ (rustLines text).drop 1, llvmLineOkB gap l = true) →
      ∃ r, extract_llvm_mapfile text gap = some r) :=
  ⟨fun _ h => extract_gnu_total h, fun _ _ h => extract_llvm_total h⟩

def c3LlvmBadText : List Char :=
  ("VMA LMA Size Align Out     In Symbol\n0 0 0 0         badname\n").data

def c3GnuOverflowText : List Char := (".a 0x10000000000000000 0x0\n").data

/-- C3 counterexample: the parsers do not succeed on every input.  An
LLVM mapfile whose subsection-classified row has no `":("` in its name
field panics on `split_once(":(").unwrap()` (through the full
`extract_mapfile` dispatch), and a GNU section row whose hex numeral
exceeds u64 panics on `from_str_radix(..).unwrap()`. -/
theorem parsers_panic_counterexample :
    extract_mapfile c3LlvmBadText = none ∧
    extract_gnu_mapfile c3GnuOverflowText = none := by
  constructor
  · rfl
  · rfl

def c3GnuGoodText : List Char := (".t 0x5 0x2\n .s 0x6 0x1 a.o\n").data

def c3LlvmGoodText : List Char :=
  ("VMA LMA Size Align Out     In Symbol\n 0 0 0 0 .text\n").data

/-- C3 witness: both side conditions discharged at concrete inputs. -/
theorem parsers_total_witness :
    (∃ r, extract_gnu_mapfile c3GnuGoodText = some r) ∧
    (∃ r, extract_llvm_mapfile c3LlvmGoodText 5 = some r) :=
  ⟨parsers_total_amended.1 c3GnuGoodText (by decide),
   parsers_total_amended.2 c3LlvmGoodText 5 (by decide)⟩

end GenealogyRs
